import Mathlib

/-!
Shallow embedding of the Hypersonic simulation core (`src/hypersonic/model.py`
and `src/hypersonic/entities.py`) together with theorems settling the frozen
claims about its specification.

Conventions:
* Python machine integers are embedded as `Int` (coordinates may be negative
  after parsing) and counters that are provably non-negative as `Nat`.
* Mutation is embedded as explicit state passing on `Game` / `PropState`.
* `ValueError` style failures are embedded as `Except Unit` / `Option`.
-/

namespace Hypersonic

/-- `CellType` from `entities.py`: a grid cell is floor (".") or a box ("0"). -/
inductive Cell where
  | floor
  | box
deriving DecidableEq, Repr, Inhabited

abbrev Coord := Int × Int

abbrev Grid := List (List Cell)

/-- `Bomb` from `entities.py` (the fields read by the model). -/
structure Bomb where
  owner_id : Nat
  x : Int
  y : Int
  timer : Nat
  range : Nat
deriving DecidableEq, Repr

/-- `Bomb.LIFETIME`. -/
def Bomb.LIFETIME : Nat := 8

/-- `Bomb.RANGE`. -/
def Bomb.RANGE : Nat := 3

/-- `Bomb.__init__(owner_id, x, y)`. -/
def Bomb.init (owner : Nat) (x y : Int) : Bomb :=
  { owner_id := owner, x := x, y := y, timer := Bomb.LIFETIME, range := Bomb.RANGE }

/-- `Bomb.tick`: decrement the timer (floored at 0); the Bool is the returned
"should explode now" flag (`timer == 0` after the decrement). -/
def Bomb.tick (b : Bomb) : Bomb × Bool :=
  let b' := if 0 < b.timer then { b with timer := b.timer - 1 } else b
  (b', b'.timer == 0)

/-- Movement/animation state of an agent (`Agent.State`). -/
inductive AgentState where
  | idle
  | move
deriving DecidableEq, Repr, Inhabited

/-- `Agent` from `entities.py` (the fields read or written by the model). -/
structure Agent where
  id : Nat
  x : Int
  y : Int
  bombs_left : Nat
  boxes_blown_up : Nat
  disqualified : Bool
  message : String
  state : AgentState
  direction : String
  previous_x : Int
  previous_y : Int
deriving DecidableEq, Repr

instance : Inhabited Agent :=
  ⟨{ id := 0, x := 0, y := 0, bombs_left := 0, boxes_blown_up := 0, disqualified := false,
     message := "", state := .idle, direction := "", previous_x := 0, previous_y := 0 }⟩

/-- The mutable state of `Game` (the fields the model reads and writes). -/
structure Game where
  bombs : List Bomb
  agents : List Agent
  grid : Grid
  explosions : Finset Coord
deriving DecidableEq

/-- `Game.WIDTH`. -/
def WIDTH : Int := 13

/-- `Game.HEIGHT`. -/
def HEIGHT : Int := 11

/-- `Game.DIRECTIONS` (clockwise: up, right, down, left). -/
def DIRECTIONS : List (Int × Int) := [(0, -1), (1, 0), (0, 1), (-1, 0)]

/-- `Game.DIRECTIONS_MAPPING` as a function (the dict lookup). -/
def dirName (dx dy : Int) : String :=
  if dx = 0 ∧ dy = -1 then "up"
  else if dx = 1 ∧ dy = 0 then "right"
  else if dx = 0 ∧ dy = 1 then "down"
  else if dx = -1 ∧ dy = 0 then "left"
  else ""

/-- `Game.in_bounds`. -/
def in_bounds (x y : Int) : Bool :=
  0 ≤ x ∧ x < WIDTH ∧ 0 ≤ y ∧ y < HEIGHT

/-- Reading `self.grid[y][x]` (only meaningful at in-bounds coordinates). -/
def cellAt (g : Grid) (x y : Int) : Cell :=
  (g.getD y.toNat []).getD x.toNat Cell.floor

/-- Writing `self.grid[y][x] = c`. -/
def updateAt {α : Type _} : List α → Nat → (α → α) → List α
  | [], _, _ => []
  | a :: rest, 0, f => f a :: rest
  | a :: rest, n + 1, f => a :: updateAt rest n f

def setCell (g : Grid) (x y : Int) (c : Cell) : Grid :=
  updateAt g y.toNat (fun row => updateAt row x.toNat (fun _ => c))

/-- `self.agents[i]` (indexing valid in all modelled states). -/
def agentAt (g : Game) (i : Nat) : Agent :=
  g.agents.getD i default

/-- `Game.walkable`: in bounds, not blocked by a bomb from a previous turn
(`next(...)` takes the first bomb occupying the cell), and a floor cell. -/
def Game.walkable (g : Game) (x y : Int) : Bool :=
  if ¬ in_bounds x y then false
  else
    match g.bombs.find? (fun b => b.x == x && b.y == y) with
    | some b => if b.timer < Bomb.LIFETIME then false else cellAt g.grid x y == Cell.floor
    | none => cellAt g.grid x y == Cell.floor

/-- One agent's `bombs_left += 1` (`self.agents[i].bombs_left += 1`). -/
def bumpBombsLeft (ags : List Agent) (i : Nat) : List Agent :=
  updateAt ags i (fun a => { a with bombs_left := a.bombs_left + 1 })

/-- The loop body of `Game.tick_bombs`: returns (exploding, remaining, agents). -/
def tickAux : List Bomb → List Agent → List Bomb × List Bomb × List Agent
  | [], ags => ([], [], ags)
  | b :: rest, ags =>
    let t := Bomb.tick b
    if t.2 then
      let r := tickAux rest (bumpBombsLeft ags t.1.owner_id)
      (t.1 :: r.1, r.2.1, r.2.2)
    else
      let r := tickAux rest ags
      (r.1, t.1 :: r.2.1, r.2.2)

/-- `Game.tick_bombs`: ticks all bombs, removes the exploding ones from the
live list, credits their owners, and returns them. -/
def Game.tick_bombs (g : Game) : Game × List Bomb :=
  let r := tickAux g.bombs g.agents
  ({ g with bombs := r.2.1, agents := r.2.2 }, r.1)

/-! ### Action parsing (`Game.parse_action`) -/

/-- The whitespace characters recognised by Python's `str.split` (ASCII part). -/
def pyIsSpace (c : Char) : Bool :=
  c = ' ' ∨ c = '\t' ∨ c = '\n' ∨ c = '\r' ∨ c = '\x0b' ∨ c = '\x0c'

/-- Helper for `split3`: strip leading whitespace, then either emit the whole
remainder (budget exhausted) or take one token and recurse (structural on the
remaining split budget). -/
def splitAux : Nat → List Char → List String
  | budget, cs =>
    match cs.dropWhile pyIsSpace with
    | [] => []
    | c :: rest =>
      match budget with
      | 0 => [String.mk (c :: rest)]
      | b + 1 =>
        String.mk ((c :: rest).takeWhile (fun ch => !pyIsSpace ch)) ::
          splitAux b ((c :: rest).dropWhile (fun ch => !pyIsSpace ch))

/-- Python's `action.split(maxsplit=3)`. -/
def split3 (s : String) : List String :=
  splitAux 3 s.data

/-- Digit run with single underscores between digits, continuing `acc`
(Python `int` literal tail). -/
def pyDigitsAux : Nat → List Char → Option Nat
  | acc, [] => some acc
  | acc, c :: cs =>
    if c.isDigit then pyDigitsAux (acc * 10 + (c.toNat - '0'.toNat)) cs
    else if c = '_' then
      match cs with
      | c2 :: cs2 =>
        if c2.isDigit then pyDigitsAux (acc * 10 + (c2.toNat - '0'.toNat)) cs2 else none
      | [] => none
    else none

/-- Nonempty digit run (underscores allowed between digits). -/
def pyNat : List Char → Option Nat
  | [] => none
  | c :: cs => if c.isDigit then pyDigitsAux (c.toNat - '0'.toNat) cs else none

/-- Python's `int(token)` on an ASCII token: optional surrounding whitespace,
optional single sign, digits with optional single underscores between them. -/
def pyInt (s : String) : Option Int :=
  let cs := ((s.data.dropWhile pyIsSpace).reverse.dropWhile pyIsSpace).reverse
  match cs with
  | '+' :: rest => (pyNat rest).map Int.ofNat
  | '-' :: rest => (pyNat rest).map (fun n => -(n : Int))
  | rest => (pyNat rest).map Int.ofNat

/-- Python's `str.upper` on one character (ASCII range, which is all the
command comparison ever needs). -/
def pyUpperChar (c : Char) : Char :=
  if 'a' ≤ c ∧ c ≤ 'z' then Char.ofNat (c.toNat - 32) else c

/-- Python's `cmd.upper()`. -/
def pyUpper (s : String) : String :=
  String.mk (s.data.map pyUpperChar)

/-- The value returned by `Game.parse_action` (its `ValueError` as `none`);
the command is uppercased as in `cmd.upper()`. -/
def parseTriple (action : String) : Option (String × Int × Int) :=
  match split3 action with
  | [cmd, xs, ys] =>
    match pyInt xs, pyInt ys with
    | some xi, some yi => some (pyUpper cmd, xi, yi)
    | _, _ => none
  | [cmd, xs, ys, _] =>
    match pyInt xs, pyInt ys with
    | some xi, some yi => some (pyUpper cmd, xi, yi)
    | _, _ => none
  | _ => none

/-- The message field assignment performed by `Game.parse_action` (it happens
before the `int` conversions, so it persists even when parsing then fails). -/
def parseMessage (action : String) (old : String) : String :=
  match split3 action with
  | [_, _, _] => ""
  | [_, _, _, msg] => msg
  | _ => old

/-- `Game.parse_action`: updates the agent's message and yields the parsed
command triple (or `none` for the raised `ValueError`). -/
def Game.parse_action (g : Game) (i : Nat) (action : String) :
    Game × Option (String × Int × Int) :=
  ({ g with agents :=
      updateAt g.agents i (fun a => { a with message := parseMessage action a.message }) },
   parseTriple action)

/-! ### Explosion propagation (`Game.propagate_explosions`) -/

/-- The local variables of `propagate_explosions` while its queue loop runs. -/
structure PropState where
  bombs : List Bomb
  agents : List Agent
  scorched : Finset Coord
  boxHits : List (Coord × List Nat)
  processed : Finset Coord
  queue : List Bomb
deriving DecidableEq

/-- Result of the `for other_bomb in self.bombs` scan at one ray cell. -/
structure ScanResult where
  bombs : List Bomb
  processed : Finset Coord
  queue : List Bomb
  agents : List Agent
  found : Bool
deriving DecidableEq

/-- The `for other_bomb in self.bombs` loop at ray cell `(nx, ny)`: every bomb
sitting on the cell sets `bomb_found`; a live one not yet queued for the pass
is forced to timer 0, its owner is credited, and it is enqueued. -/
def scanCell (nx ny : Int) : List Bomb → Finset Coord → List Bomb → List Agent → ScanResult
  | [], proc, q, ags => ⟨[], proc, q, ags, false⟩
  | b :: rest, proc, q, ags =>
    if b.x = nx ∧ b.y = ny then
      if 0 < b.timer ∧ (b.x, b.y) ∉ proc then
        let b' := { b with timer := 0 }
        let r := scanCell nx ny rest (insert (b.x, b.y) proc)
          (if b' ∈ q then q else q ++ [b']) (bumpBombsLeft ags b.owner_id)
        ⟨b' :: r.bombs, r.processed, r.queue, r.agents, true⟩
      else
        let r := scanCell nx ny rest proc q ags
        ⟨b :: r.bombs, r.processed, r.queue, r.agents, true⟩
    else
      let r := scanCell nx ny rest proc q ags
      ⟨b :: r.bombs, r.processed, r.queue, r.agents, r.found⟩

/-- `box_hit_by[(nx, ny)].add(owner)` on the insertion-ordered dict. -/
def addHit : List (Coord × List Nat) → Coord → Nat → List (Coord × List Nat)
  | [], c, o => [(c, [o])]
  | (c', owners) :: rest, c, o =>
    if c' = c then (c', if o ∈ owners then owners else owners ++ [o]) :: rest
    else (c', owners) :: addHit rest c o

/-- One direction of the ray cast (`for i in range(1, bomb.range)`), walking
from `(px, py)` with `steps` cells left: stop out of bounds; scorch; record and
stop on a box; trigger bombs on the cell and stop if any bomb was there. -/
def castRay (grid : Grid) (owner : Nat) (dx dy : Int) : Nat → Int → Int → PropState → PropState
  | 0, _, _, s => s
  | steps + 1, px, py, s =>
    if ¬ in_bounds (px + dx) (py + dy) then s
    else
      if cellAt grid (px + dx) (py + dy) = Cell.box then
        { s with scorched := insert (px + dx, py + dy) s.scorched,
                 boxHits := addHit s.boxHits (px + dx, py + dy) owner }
      else
        if (scanCell (px + dx) (py + dy) s.bombs s.processed s.queue s.agents).found then
          { s with scorched := insert (px + dx, py + dy) s.scorched,
                   bombs := (scanCell (px + dx) (py + dy) s.bombs s.processed s.queue s.agents).bombs,
                   processed := (scanCell (px + dx) (py + dy) s.bombs s.processed s.queue s.agents).processed,
                   queue := (scanCell (px + dx) (py + dy) s.bombs s.processed s.queue s.agents).queue,
                   agents := (scanCell (px + dx) (py + dy) s.bombs s.processed s.queue s.agents).agents }
        else
          castRay grid owner dx dy steps (px + dx) (py + dy)
            { s with scorched := insert (px + dx, py + dy) s.scorched,
                     bombs := (scanCell (px + dx) (py + dy) s.bombs s.processed s.queue s.agents).bombs,
                     processed := (scanCell (px + dx) (py + dy) s.bombs s.processed s.queue s.agents).processed,
                     queue := (scanCell (px + dx) (py + dy) s.bombs s.processed s.queue s.agents).queue,
                     agents := (scanCell (px + dx) (py + dy) s.bombs s.processed s.queue s.agents).agents }

/-- Processing one popped bomb: scorch its center, cast the 4 rays. -/
def propStep (grid : Grid) (b : Bomb) (s : PropState) : PropState :=
  DIRECTIONS.foldl (fun st d => castRay grid b.owner_id d.1 d.2 (b.range - 1) b.x b.y st)
    { s with scorched := insert (b.x, b.y) s.scorched }

/-- Termination measure of the queue loop: bombs at not-yet-queued coordinates
plus pending queue entries. -/
def measureP (s : PropState) : Nat :=
  s.bombs.countP (fun b => decide ((b.x, b.y) ∉ s.processed)) + s.queue.length

/-- The `while queue:` loop, with explicit fuel. -/
def propLoopF (grid : Grid) : Nat → PropState → Option PropState
  | 0, _ => none
  | fuel + 1, s =>
    match s.queue with
    | [] => some s
    | b :: rest => propLoopF grid fuel (propStep grid b { s with queue := rest })

/-- The `while queue:` loop (the supplied fuel always suffices; see
`propLoopF_fuel`). -/
def propLoop (grid : Grid) (s : PropState) : PropState :=
  (propLoopF grid (measureP s + 1) s).getD s

/-- The loop state on entry to `propagate_explosions`. -/
def initProp (g : Game) (seeds : List Bomb) : PropState :=
  { bombs := g.bombs, agents := g.agents, scorched := ∅, boxHits := [],
    processed := (seeds.map (fun b => (b.x, b.y))).toFinset, queue := seeds }

/-- The `# destroy boxes and assign points to owners` loop. -/
def scoreBoxes : Grid → List Agent → List (Coord × List Nat) → Grid × List Agent
  | grid, ags, [] => (grid, ags)
  | grid, ags, (c, owners) :: rest =>
    if cellAt grid c.1 c.2 = Cell.box then
      scoreBoxes (setCell grid c.1 c.2 Cell.floor)
        (owners.foldl
          (fun as o => updateAt as o (fun a => { a with boxes_blown_up := a.boxes_blown_up + 1 }))
          ags)
        rest
    else scoreBoxes grid ags rest

/-- The loop state after the queue of `propagate_explosions` has drained. -/
def propagateState (g : Game) (seeds : List Bomb) : PropState :=
  propLoop g.grid (initProp g seeds)

/-- `Game.propagate_explosions`: run the queue loop, replace the explosion
set, destroy hit boxes with multi-owner credit, drop timer-0 bombs. -/
def Game.propagate_explosions (g : Game) (seeds : List Bomb) : Game :=
  { bombs := (propagateState g seeds).bombs.filter (fun b => decide (0 < b.timer)),
    agents := (scoreBoxes g.grid (propagateState g seeds).agents
      (propagateState g seeds).boxHits).2,
    grid := (scoreBoxes g.grid (propagateState g seeds).agents
      (propagateState g seeds).boxHits).1,
    explosions := (propagateState g seeds).scorched }

/-- The 13×11 shape invariant `Game.__init__` asserts for every grid. -/
def gridWF (g : Grid) : Prop :=
  g.length = 11 ∧ ∀ row ∈ g, row.length = 13

instance (g : Grid) : Decidable (gridWF g) := by
  unfold gridWF
  infer_instance

/-- The cells scorched by one ray, as a pure function of the pass state (the
bomb registry is not mutated at any cell the ray passes before it stops, so
this list is exact; see `castRay_scorched`). -/
def raySpan (grid : Grid) (bombs : List Bomb) : Nat → Int → Int → Int → Int → List Coord
  | 0, _, _, _, _ => []
  | steps + 1, px, py, dx, dy =>
    if ¬ in_bounds (px + dx) (py + dy) then []
    else if cellAt grid (px + dx) (py + dy) = Cell.box then [(px + dx, py + dy)]
    else if bombs.any (fun b => b.x == px + dx && b.y == py + dy) then [(px + dx, py + dy)]
    else (px + dx, py + dy) :: raySpan grid bombs steps (px + dx) (py + dy) dx dy

/-- Iterating `tick_bombs` (the second component is the last call's result). -/
def tickIter (g : Game) : Nat → Game × List Bomb
  | 0 => (g, [])
  | n + 1 => (tickIter g n).1.tick_bombs

/-! ### Shortest path (`Game.path`) — note it works on `(row, col)` pairs -/

/-- Neighbor expansion of the BFS: visit `cur + d` if walkable and unvisited
(`Game.path` reuses `DIRECTIONS` as `(drow, dcol)` offsets, and queries
`walkable(col, row)`). -/
def bfsExpand (g : Game) (cur : Coord) (p : List Coord)
    (vq : Finset Coord × List (Coord × List Coord)) (d : Int × Int) :
    Finset Coord × List (Coord × List Coord) :=
  let rc : Coord := (cur.1 + d.1, cur.2 + d.2)
  if g.walkable rc.2 rc.1 ∧ rc ∉ vq.1 then
    (insert rc vq.1, vq.2 ++ [(rc, p ++ [rc])])
  else vq

/-- All in-bounds `(row, col)` pairs: the cells the BFS can ever enqueue. -/
def allCellsRC : Finset Coord :=
  ((Finset.range 11) ×ˢ (Finset.range 13)).image (fun p => ((p.1 : Int), (p.2 : Int)))

/-- Termination measure of the BFS: undiscovered cells plus queue entries. -/
def measureB (vq : Finset Coord × List (Coord × List Coord)) : Nat :=
  (allCellsRC \ vq.1).card + vq.2.length

/-- The BFS loop of `Game.path`, with explicit fuel; returns `path[1]` of the
first queue entry reaching `dst` (`none` when the path has one cell). -/
def bfsLoopF (g : Game) (dst : Coord) :
    Nat → Finset Coord × List (Coord × List Coord) → Option (Option Coord)
  | 0, _ => none
  | fuel + 1, vq =>
    match vq.2 with
    | [] => some none
    | (cur, p) :: rest =>
      if cur = dst then some p[1]?
      else bfsLoopF g dst fuel (DIRECTIONS.foldl (bfsExpand g cur p) (vq.1, rest))

/-- The initial BFS state: `queue = deque([(src, [src])])`, `visited = {src}`. -/
def bfsInit (src : Coord) : Finset Coord × List (Coord × List Coord) :=
  ({src}, [(src, [src])])

/-- `Game.path` (the supplied fuel always suffices, see `bfsLoopF_fuel`):
first step of a breadth-first path from `src` to `dst`, in `(row, col)`. -/
def Game.path (g : Game) (src dst : Coord) : Option Coord :=
  (bfsLoopF g dst (measureB (bfsInit src) + 1) (bfsInit src)).getD none

/-! ### Movement (`Game.move`) and action processing -/

/-- The Manhattan distance key of the destination fallback. -/
def manh (a b : Coord) : Nat :=
  (a.1 - b.1).natAbs + (a.2 - b.2).natAbs

/-- Python's `min(list, key=k)`: first element with minimal key; `none` on an
empty list (the raised `ValueError`). -/
def pyMin : List Coord → (Coord → Nat) → Option Coord
  | [], _ => none
  | c :: rest, k => some (rest.foldl (fun best c' => if k c' < k best then c' else best) c)

/-- The walkable cells adjacent to `(x, y)`, in `DIRECTIONS` order. -/
def candidates (g : Game) (x y : Int) : List Coord :=
  (DIRECTIONS.map (fun d => (x + d.1, y + d.2))).filter (fun c => g.walkable c.1 c.2)

/-- The tail of `Game.move` after destination substitution: walk one BFS step
toward `(x', y')`, or go idle when there is no path. -/
def Game.moveToward (g : Game) (i : Nat) (x' y' : Int) : Game :=
  match g.path ((agentAt g i).y, (agentAt g i).x) (y', x') with
  | some nc =>
    { g with agents := updateAt g.agents i (fun ag =>
        { ag with direction := dirName (nc.2 - (agentAt g i).x) (nc.1 - (agentAt g i).y),
                  previous_x := (agentAt g i).x, previous_y := (agentAt g i).y, state := .move,
                  x := nc.2, y := nc.1 }) }
  | none =>
    { g with agents := updateAt g.agents i (fun ag => { ag with state := .idle }) }

/-- `Game.move`: no-op on the agent's own cell; substitute an unwalkable
target with the closest walkable adjacent cell (first minimizer, direction
order); `.error` is the `ValueError` raised by `min` on no candidates. -/
def Game.move (g : Game) (i : Nat) (x y : Int) : Except Unit Game :=
  if (agentAt g i).x = x ∧ (agentAt g i).y = y then
    .ok { g with agents := updateAt g.agents i (fun ag => { ag with state := .idle }) }
  else if g.walkable x y then .ok (g.moveToward i x y)
  else
    match pyMin (candidates g x y) (fun c => manh ((agentAt g i).x, (agentAt g i).y) c) with
    | none => .error ()
    | some t => .ok (g.moveToward i t.1 t.2)

/-- `agent.disqualified = True`. -/
def Game.disqualify (g : Game) (i : Nat) : Game :=
  { g with agents := updateAt g.agents i (fun a => { a with disqualified := true }) }

/-- The `BOMB` branch of `process_agent_actions`: place a bomb at the agent's
cell when it has capacity and the cell is free; otherwise only log. -/
def Game.placeBomb (g : Game) (i : Nat) : Game :=
  if 0 < (agentAt g i).bombs_left then
    if ¬ g.bombs.any (fun b => b.x == (agentAt g i).x && b.y == (agentAt g i).y) then
      { g with bombs := g.bombs ++ [Bomb.init (agentAt g i).id (agentAt g i).x (agentAt g i).y],
               agents := updateAt g.agents i (fun ag => { ag with bombs_left := ag.bombs_left - 1 }) }
    else g
  else g

/-- Processing one agent's raw action string (one iteration of
`process_agent_actions`, including its `except ValueError` handler). -/
def processParsed (g1 : Game) (i : Nat) : Option (String × Int × Int) → Game
  | none => g1.disqualify i
  | some (cmd, x, y) =>
    if ¬ in_bounds x y then g1.disqualify i
    else if cmd = "BOMB" then
      match (g1.placeBomb i).move i x y with
      | .ok g3 => g3
      | .error _ => (g1.placeBomb i).disqualify i
    else if cmd = "MOVE" then
      match g1.move i x y with
      | .ok g3 => g3
      | .error _ => g1.disqualify i
    else g1.disqualify i

def Game.process_action (g : Game) (i : Nat) (action : String) : Game :=
  processParsed (g.parse_action i action).1 i (g.parse_action i action).2

/-- `Game.process_agent_actions` over the (insertion-ordered) actions dict. -/
def Game.process_agent_actions (g : Game) (acts : List (Nat × String)) : Game :=
  acts.foldl (fun h p => h.process_action p.1 p.2) g

/-! ### Concrete game states used by witnesses and counterexamples -/

/-- The all-floor 13×11 grid. -/
def emptyGrid : Grid := List.replicate 11 (List.replicate 13 Cell.floor)

/-- A fresh agent as `Agent.__init__` builds it (name/display fields fixed). -/
def mkAgent (i : Nat) (x y : Int) : Agent :=
  { id := i, x := x, y := y, bombs_left := 1, boxes_blown_up := 0, disqualified := false,
    message := "", state := .idle, direction := if x = 0 then "down" else "up",
    previous_x := x, previous_y := y }

/-- Two agents on the standard corners, empty open grid. -/
def gOpen : Game :=
  { bombs := [], agents := [mkAgent 0 0 0, mkAgent 1 12 10], grid := emptyGrid, explosions := ∅ }

/-- Open game with one aged bomb at (5, 6) (timer 7 < lifetime). -/
def gAged : Game :=
  { gOpen with bombs := [{ owner_id := 0, x := 5, y := 6, timer := 7, range := 3 }] }

/-- Open game with one full-timer bomb at (9, 5). -/
def gFresh : Game :=
  { gOpen with bombs := [{ owner_id := 0, x := 9, y := 5, timer := 8, range := 3 }] }

/-- C1 counterexample state: box at (2, 0); two seed bombs at (0, 0) and
(1, 0) already removed from the registry by `tick_bombs`. -/
def gC1 : Game := { gOpen with grid := setCell emptyGrid 2 0 Cell.box }

def seedA : Bomb := { owner_id := 0, x := 0, y := 0, timer := 0, range := 3 }

def seedB : Bomb := { owner_id := 1, x := 1, y := 0, timer := 0, range := 3 }

/-- The same state one tick earlier: both bombs still live with timer 1. -/
def gC1pre : Game :=
  { gC1 with bombs := [{ seedA with timer := 1 }, { seedB with timer := 1 }] }

/-- C2 witness state: box at (1, 0); seeds at (0, 0) (owner 0) and (1, 2)
(owner 1) both reach it. -/
def gBox : Game := { gOpen with grid := setCell emptyGrid 1 0 Cell.box }

def hitA : Bomb := { owner_id := 0, x := 0, y := 0, timer := 0, range := 3 }

def hitB : Bomb := { owner_id := 1, x := 1, y := 2, timer := 0, range := 3 }

/-- C3 witness state: a live bomb at (4, 7) chained by a seed at (4, 5). -/
def chainSeed : Bomb := { owner_id := 0, x := 4, y := 5, timer := 0, range := 3 }

def chainTarget : Bomb := { owner_id := 1, x := 4, y := 7, timer := 8, range := 3 }

def gChain : Game := { gOpen with bombs := [chainTarget] }

/-- C9 counterexample state: agent 0 stands at (0, 0) on a bomb placed in a
previous turn (timer 3), making its own cell unwalkable. -/
def gC9 : Game :=
  { gOpen with bombs := [{ owner_id := 0, x := 0, y := 0, timer := 3, range := 3 }] }

/-- C9 amended-claim witness state: box at (3, 1). -/
def gFall : Game := { gOpen with grid := setCell emptyGrid 3 1 Cell.box }

/-- C10 counterexample state: boxes at (0, 0), (1, 0) and (0, 1); agent 0 at
(5, 5) holding a bomb. Target (0, 0) has no walkable neighbor. -/
def gC10 : Game :=
  { bombs := [],
    agents := [mkAgent 0 5 5, mkAgent 1 12 10],
    grid := setCell (setCell (setCell emptyGrid 0 0 Cell.box) 1 0 Cell.box) 0 1 Cell.box,
    explosions := ∅ }

/-- Second C10 counterexample state: agent 0 at (0, 0) on an aged bomb with
boxed-in neighbors, so its own cell is the unwalkable target. -/
def gC10b : Game :=
  { bombs := [{ owner_id := 0, x := 0, y := 0, timer := 3, range := 3 }],
    agents := [mkAgent 0 0 0, mkAgent 1 12 10],
    grid := setCell (setCell emptyGrid 1 0 Cell.box) 0 1 Cell.box,
    explosions := ∅ }

/-! ## Helper lemmas -/

theorem length_updateAt {α : Type _} (l : List α) (i : Nat) (f : α → α) :
    (updateAt l i f).length = l.length := by
  induction l generalizing i with
  | nil => rfl
  | cons a rest ih =>
    cases i with
    | zero => simp [updateAt]
    | succ n => simp [updateAt, ih]

theorem getD_updateAt_self {α : Type _} (l : List α) (i : Nat) (f : α → α) (d : α)
    (h : i < l.length) : (updateAt l i f).getD i d = f (l.getD i d) := by
  induction l generalizing i with
  | nil => simp at h
  | cons a rest ih =>
    cases i with
    | zero => simp [updateAt]
    | succ n => simpa [updateAt] using ih n (by simpa using h)

theorem getD_updateAt_ne {α : Type _} (l : List α) (i j : Nat) (f : α → α) (d : α)
    (h : i ≠ j) : (updateAt l i f).getD j d = l.getD j d := by
  induction l generalizing i j with
  | nil => rfl
  | cons a rest ih =>
    cases i with
    | zero =>
      cases j with
      | zero => exact absurd rfl h
      | succ m => simp [updateAt]
    | succ n =>
      cases j with
      | zero => simp [updateAt]
      | succ m => simpa [updateAt] using ih n m (by omega)

theorem updateAt_of_le {α : Type _} (l : List α) (i : Nat) (f : α → α)
    (h : l.length ≤ i) : updateAt l i f = l := by
  induction l generalizing i with
  | nil => rfl
  | cons a rest ih =>
    cases i with
    | zero => simp at h
    | succ n => simp [updateAt, ih n (by simpa using h)]

theorem tick_fields (c : Bomb) :
    (Bomb.tick c).1.x = c.x ∧ (Bomb.tick c).1.y = c.y ∧ (Bomb.tick c).1.owner_id = c.owner_id ∧
      (Bomb.tick c).1.range = c.range := by
  simp only [Bomb.tick]
  split <;> simp

theorem tick_timer (c : Bomb) : (Bomb.tick c).1.timer = c.timer - 1 := by
  simp only [Bomb.tick]
  split
  · rfl
  · next h => omega

theorem walkable_oob (g : Game) (x y : Int) (h : ¬ in_bounds x y = true) :
    g.walkable x y = false := by
  simp [Game.walkable, h]

theorem walkable_no_bomb (g : Game) (x y : Int) (hib : in_bounds x y = true)
    (hf : g.bombs.find? (fun b => b.x == x && b.y == y) = none) :
    g.walkable x y = (cellAt g.grid x y == Cell.floor) := by
  simp [Game.walkable, hib, hf]

theorem walkable_bomb_lt (g : Game) (x y : Int) (hib : in_bounds x y = true) (b0 : Bomb)
    (hf : g.bombs.find? (fun b => b.x == x && b.y == y) = some b0)
    (ht : b0.timer < Bomb.LIFETIME) : g.walkable x y = false := by
  simp [Game.walkable, hib, hf, ht]

theorem walkable_bomb_ge (g : Game) (x y : Int) (hib : in_bounds x y = true) (b0 : Bomb)
    (hf : g.bombs.find? (fun b => b.x == x && b.y == y) = some b0)
    (ht : ¬ b0.timer < Bomb.LIFETIME) :
    g.walkable x y = (cellAt g.grid x y == Cell.floor) := by
  simp [Game.walkable, hib, hf, ht]

/-! ## C7 — walkable -/

/-- **C7**: `walkable(x,y)` holds iff the cell is in bounds, not a box, and
not occupied by a bomb placed in a previous turn; a full-timer bomb does not
block its cell, a bomb with timer strictly below the lifetime does. -/
theorem claim_C7 (g : Game) (x y : Int)
    (hone : ∀ b1 ∈ g.bombs, ∀ b2 ∈ g.bombs, b1.x = b2.x → b1.y = b2.y → b1 = b2) :
    (g.walkable x y = true ↔
      (in_bounds x y = true ∧ cellAt g.grid x y ≠ Cell.box ∧
        ∀ b ∈ g.bombs, b.x = x → b.y = y → ¬ b.timer < Bomb.LIFETIME)) ∧
    (∀ b ∈ g.bombs, b.x = x → b.y = y → b.timer = Bomb.LIFETIME →
      g.walkable x y = (in_bounds x y && (cellAt g.grid x y == Cell.floor))) ∧
    (∀ b ∈ g.bombs, b.x = x → b.y = y → b.timer < Bomb.LIFETIME →
      g.walkable x y = false) := by
  by_cases hib : in_bounds x y = true
  · rcases hf : g.bombs.find? (fun b => b.x == x && b.y == y) with _ | b0
    · have hw := walkable_no_bomb g x y hib hf
      rw [List.find?_eq_none] at hf
      have hnb : ∀ b ∈ g.bombs, b.x = x → b.y = y → False := by
        intro b hb hbx hby
        exact absurd (by simp [hbx, hby]) (hf b hb)
      refine ⟨?_, ?_, ?_⟩
      · rw [hw]
        constructor
        · intro hc
          refine ⟨hib, ?_, ?_⟩
          · cases hcell : cellAt g.grid x y <;> simp_all
          · intro b hb hbx hby
            exact absurd (hnb b hb hbx hby) not_false
        · rintro ⟨-, hnbx, -⟩
          cases hcell : cellAt g.grid x y <;> simp_all
      · intro b hb hbx hby _
        exact absurd (hnb b hb hbx hby) not_false
      · intro b hb hbx hby _
        exact absurd (hnb b hb hbx hby) not_false
    · have hm := List.mem_of_find?_eq_some hf
      have hp := List.find?_some hf
      simp only [Bool.and_eq_true, beq_iff_eq] at hp
      obtain ⟨hx0, hy0⟩ := hp
      by_cases hT : b0.timer < Bomb.LIFETIME
      · have hw := walkable_bomb_lt g x y hib b0 hf hT
        refine ⟨?_, ?_, ?_⟩
        · rw [hw]
          constructor
          · intro hfalse
            exact absurd hfalse (by simp)
          · rintro ⟨-, -, hall⟩
            exact absurd hT (hall b0 hm hx0 hy0)
        · intro b hb hbx hby hbt
          have hbe : b = b0 := hone b hb b0 hm (by omega) (by omega)
          rw [hbe] at hbt
          rw [hbt] at hT
          exact absurd hT (lt_irrefl _)
        · intro _ _ _ _ _
          exact hw
      · have hw := walkable_bomb_ge g x y hib b0 hf hT
        refine ⟨?_, ?_, ?_⟩
        · rw [hw]
          constructor
          · intro hc
            refine ⟨hib, ?_, ?_⟩
            · cases hcell : cellAt g.grid x y <;> simp_all
            · intro b hb hbx hby
              have hbe : b = b0 := hone b hb b0 hm (by omega) (by omega)
              rw [hbe]
              exact hT
          · rintro ⟨-, hnbx, -⟩
            cases hcell : cellAt g.grid x y <;> simp_all
        · intro _ _ _ _ _
          rw [hw, hib, Bool.true_and]
        · intro b hb hbx hby hbt
          have hbe : b = b0 := hone b hb b0 hm (by omega) (by omega)
          rw [hbe] at hbt
          exact absurd hbt hT
  · have hw := walkable_oob g x y hib
    refine ⟨?_, ?_, ?_⟩
    · rw [hw]
      constructor
      · intro hfalse
        exact absurd hfalse (by simp)
      · rintro ⟨hb, -, -⟩
        exact absurd hb hib
    · intro b hb hbx hby _
      rw [hw]
      have : in_bounds x y = false := by simp_all
      rw [this, Bool.false_and]
    · intro _ _ _ _ _
      exact hw

/-- Witness for C7: the aged bomb at (5, 6) (timer 7 < 8) blocks its cell. -/
theorem claim_C7_witness :
    (∀ b1 ∈ gAged.bombs, ∀ b2 ∈ gAged.bombs, b1.x = b2.x → b1.y = b2.y → b1 = b2) ∧
      gAged.walkable 5 6 = false :=
  ⟨by decide, (claim_C7 gAged 5 6 (by decide)).2.2
    { owner_id := 0, x := 5, y := 6, timer := 7, range := 3 } (by decide) rfl rfl (by decide)⟩

/-! ## C4 — tick_bombs -/

theorem tick_snd (c : Bomb) : (Bomb.tick c).2 = ((Bomb.tick c).1.timer == 0) := rfl

theorem tickAux_expl (bombs : List Bomb) (ags : List Agent) :
    (tickAux bombs ags).1 =
      (bombs.map (fun c => (Bomb.tick c).1)).filter (fun c => c.timer == 0) := by
  induction bombs generalizing ags with
  | nil => rfl
  | cons c rest ih =>
    by_cases h : (Bomb.tick c).2 = true
    · have h' : ((Bomb.tick c).1.timer == 0) = true := h
      simp [tickAux, h, h', List.filter_cons, ih]
    · have h' : ((Bomb.tick c).1.timer == 0) = false := by
        rw [← tick_snd]
        simpa using h
      simp [tickAux, h, h', List.filter_cons, ih]

theorem tickAux_rem (bombs : List Bomb) (ags : List Agent) :
    (tickAux bombs ags).2.1 =
      (bombs.map (fun c => (Bomb.tick c).1)).filter (fun c => !(c.timer == 0)) := by
  induction bombs generalizing ags with
  | nil => rfl
  | cons c rest ih =>
    by_cases h : (Bomb.tick c).2 = true
    · have h' : ((Bomb.tick c).1.timer == 0) = true := h
      simp [tickAux, h, h', List.filter_cons, ih]
    · have h' : ((Bomb.tick c).1.timer == 0) = false := by
        rw [← tick_snd]
        simpa using h
      simp [tickAux, h, h', List.filter_cons, ih]

theorem tickAux_agents_len (bombs : List Bomb) (ags : List Agent) :
    (tickAux bombs ags).2.2.length = ags.length := by
  induction bombs generalizing ags with
  | nil => rfl
  | cons c rest ih =>
    simp only [tickAux]
    by_cases h : (Bomb.tick c).2 = true
    · simp [h, ih, bumpBombsLeft, length_updateAt]
    · simp only [Bool.not_eq_true] at h
      simp [h, ih]

theorem tickAux_agents (bombs : List Bomb) (ags : List Agent) (i : Nat)
    (hi : i < ags.length) :
    (tickAux bombs ags).2.2.getD i default =
      { ags.getD i default with
        bombs_left := (ags.getD i default).bombs_left +
          (tickAux bombs ags).1.countP (fun c => c.owner_id == i) } := by
  induction bombs generalizing ags with
  | nil => simp [tickAux]
  | cons c rest ih =>
    have howner : (Bomb.tick c).1.owner_id = c.owner_id := (tick_fields c).2.2.1
    by_cases h : (Bomb.tick c).2 = true
    · have hlen : i < (bumpBombsLeft ags c.owner_id).length := by
        simpa [bumpBombsLeft, length_updateAt] using hi
      have hstep := ih (bumpBombsLeft ags c.owner_id) hlen
      simp only [tickAux, h, if_true, howner]
      rw [hstep, List.countP_cons]
      by_cases ho : c.owner_id = i
      · have hbump : (bumpBombsLeft ags c.owner_id).getD i default =
            { ags.getD i default with
              bombs_left := (ags.getD i default).bombs_left + 1 } := by
          rw [ho]
          exact getD_updateAt_self ags i _ default hi
        rw [hbump]
        cases hA : ags.getD i default
        simp only [howner, ho, beq_self_eq_true, if_true, Agent.mk.injEq, and_true, true_and]
        omega
      · have hbump : (bumpBombsLeft ags c.owner_id).getD i default = ags.getD i default :=
          getD_updateAt_ne ags c.owner_id i _ default ho
        rw [hbump]
        have hno : ((Bomb.tick c).1.owner_id == i) = false := by
          simp [howner, ho]
        simp [hno]
    · simp only [Bool.not_eq_true] at h
      simp only [tickAux, h, Bool.false_eq_true, if_false]
      exact ih ags hi

theorem tick_bombs_bombs (g : Game) :
    g.tick_bombs.1.bombs =
      (g.bombs.map (fun c => (Bomb.tick c).1)).filter (fun c => !(c.timer == 0)) :=
  tickAux_rem g.bombs g.agents

theorem tick_bombs_expl (g : Game) :
    g.tick_bombs.2 =
      (g.bombs.map (fun c => (Bomb.tick c).1)).filter (fun c => c.timer == 0) :=
  tickAux_expl g.bombs g.agents

theorem tick_bombs_agents (g : Game) (i : Nat) (hi : i < g.agents.length) :
    g.tick_bombs.1.agents.getD i default =
      { g.agents.getD i default with
        bombs_left := (g.agents.getD i default).bombs_left +
          g.tick_bombs.2.countP (fun c => c.owner_id == i) } :=
  tickAux_agents g.bombs g.agents i hi

theorem tick_bombs_agents_len (g : Game) :
    g.tick_bombs.1.agents.length = g.agents.length :=
  tickAux_agents_len g.bombs g.agents

theorem tickIter_agents_len (g : Game) (k : Nat) :
    (tickIter g k).1.agents.length = g.agents.length := by
  induction k with
  | zero => rfl
  | succ n ih => rw [tickIter, tick_bombs_agents_len, ih]

/-- Position-filtered trajectory of a single bomb through iterated ticking. -/
theorem tickIter_filter (g : Game) (b : Bomb)
    (hfil : g.bombs.filter (fun c => c.x == b.x && c.y == b.y) = [b])
    (hl : 1 ≤ b.timer) :
    ∀ k, k ≤ b.timer →
      ((tickIter g k).1.bombs.filter (fun c => c.x == b.x && c.y == b.y) =
        if k < b.timer then [{ b with timer := b.timer - k }] else []) ∧
      ((tickIter g k).2.filter (fun c => c.x == b.x && c.y == b.y) =
        if b.timer ≤ k ∧ 1 ≤ k then [{ b with timer := 0 }] else []) := by
  intro k
  induction k with
  | zero =>
    intro _
    constructor
    · simp only [if_pos (by omega : 0 < b.timer), tickIter]
      simpa using hfil
    · simp [tickIter]
  | succ n ih =>
    intro hk
    have hn : n ≤ b.timer := by omega
    have hlt : n < b.timer := by omega
    obtain ⟨ihl, -⟩ := ih hn
    rw [if_pos hlt] at ihl
    have hmain : ((tickIter g n).1.bombs.map (fun c => (Bomb.tick c).1)).filter
        (fun c => c.x == b.x && c.y == b.y) =
        [(Bomb.tick { b with timer := b.timer - n }).1] := by
      rw [List.filter_map]
      have hcong : ((tickIter g n).1.bombs.filter
            ((fun c => c.x == b.x && c.y == b.y) ∘ fun c => (Bomb.tick c).1)) =
          ((tickIter g n).1.bombs.filter (fun c => c.x == b.x && c.y == b.y)) := by
        apply List.filter_congr
        intro c _
        simp [Function.comp, (tick_fields c).1, (tick_fields c).2.1]
      rw [hcong, ihl]
      rfl
    have htt : (Bomb.tick { b with timer := b.timer - n }).1 =
        { b with timer := b.timer - (n + 1) } := by
      simp only [Bomb.tick]
      split

      · simp only [Bomb.mk.injEq, and_true, true_and]
        omega
      · next hcond =>
        exfalso
        omega
    constructor
    · rw [tickIter, tick_bombs_bombs, List.filter_comm, hmain, htt, List.filter_cons]
      by_cases hend : n + 1 < b.timer
      · have : (!({ b with timer := b.timer - (n + 1) } : Bomb).timer == 0) = true := by
          simp
          omega
        simp only [this, if_true, List.filter_nil, if_pos hend]
      · have hz : b.timer - (n + 1) = 0 := by omega
        have : (!({ b with timer := b.timer - (n + 1) } : Bomb).timer == 0) = false := by
          simp [hz]
        simp only [this, Bool.false_eq_true, if_false, List.filter_nil, if_neg hend]
    · rw [tickIter, tick_bombs_expl, List.filter_comm, hmain, htt, List.filter_cons]
      by_cases hend : n + 1 < b.timer
      · have : (({ b with timer := b.timer - (n + 1) } : Bomb).timer == 0) = false := by
          simp
          omega
        simp only [this, Bool.false_eq_true, if_false, List.filter_nil,
          if_neg (by omega : ¬ (b.timer ≤ n + 1 ∧ 1 ≤ n + 1))]
      · have hz : b.timer - (n + 1) = 0 := by omega
        have : (({ b with timer := b.timer - (n + 1) } : Bomb).timer == 0) = true := by
          simp [hz]
        simp only [this, if_true, List.filter_nil,
          if_pos (by omega : b.timer ≤ n + 1 ∧ 1 ≤ n + 1)]
        simp [hz]

/-- **C4**: each `tick_all` call decrements every live timer by 1 (floored at
0), removes exactly the bombs whose timer is now 0 and credits each owner once
per returned bomb; a bomb starting at the full lifetime is returned exactly
once, on call `LIFETIME`, with timer 0, its owner's capacity restored at that
moment. -/
theorem claim_C4 (g : Game) (b : Bomb)
    (hfil : g.bombs.filter (fun c => c.x == b.x && c.y == b.y) = [b])
    (ht : b.timer = Bomb.LIFETIME) :
    (∀ h : Game,
      h.tick_bombs.1.bombs =
        (h.bombs.map (fun c => (Bomb.tick c).1)).filter (fun c => !(c.timer == 0)) ∧
      h.tick_bombs.2 =
        (h.bombs.map (fun c => (Bomb.tick c).1)).filter (fun c => c.timer == 0) ∧
      (∀ c : Bomb, (Bomb.tick c).1.timer = c.timer - 1) ∧
      ∀ i, i < h.agents.length →
        h.tick_bombs.1.agents.getD i default =
          { h.agents.getD i default with
            bombs_left := (h.agents.getD i default).bombs_left +
              h.tick_bombs.2.countP (fun c => c.owner_id == i) }) ∧
    (∀ k, 1 ≤ k → k < Bomb.LIFETIME →
      (tickIter g k).1.bombs.filter (fun c => c.x == b.x && c.y == b.y) =
        [{ b with timer := Bomb.LIFETIME - k }] ∧
      (tickIter g k).2.filter (fun c => c.x == b.x && c.y == b.y) = []) ∧
    (tickIter g Bomb.LIFETIME).2.filter (fun c => c.x == b.x && c.y == b.y) =
      [{ b with timer := 0 }] ∧
    (tickIter g Bomb.LIFETIME).1.bombs.filter (fun c => c.x == b.x && c.y == b.y) = [] ∧
    (b.owner_id < g.agents.length →
      ((tickIter g Bomb.LIFETIME).1.agents.getD b.owner_id default).bombs_left =
        ((tickIter g (Bomb.LIFETIME - 1)).1.agents.getD b.owner_id default).bombs_left +
          (tickIter g Bomb.LIFETIME).2.countP (fun c => c.owner_id == b.owner_id) ∧
      1 ≤ (tickIter g Bomb.LIFETIME).2.countP (fun c => c.owner_id == b.owner_id)) := by
  have hl : 1 ≤ b.timer := by
    rw [ht]
    decide
  have htraj := tickIter_filter g b hfil hl
  have hfl8 : (tickIter g Bomb.LIFETIME).2.filter (fun c => c.x == b.x && c.y == b.y) =
      [{ b with timer := 0 }] := by
    have h2 := (htraj Bomb.LIFETIME (by omega)).2
    rw [ht] at h2
    rw [h2, if_pos ⟨le_refl _, by decide⟩]
  refine ⟨?_, ?_, hfl8, ?_, ?_⟩
  · intro h
    exact ⟨tick_bombs_bombs h, tick_bombs_expl h, tick_timer,
      fun i hi => tick_bombs_agents h i hi⟩
  · intro k hk1 hk2
    obtain ⟨h1, h2⟩ := htraj k (by omega)
    rw [ht] at h1 h2
    refine ⟨?_, ?_⟩
    · rw [h1, if_pos hk2]
    · rw [h2, if_neg (by omega)]
  · have h1 := (htraj Bomb.LIFETIME (by omega)).1
    rw [ht] at h1
    rw [h1, if_neg (lt_irrefl _)]
  · intro hio
    have hlen7 : b.owner_id < (tickIter g (Bomb.LIFETIME - 1)).1.agents.length := by
      rw [tickIter_agents_len]
      exact hio
    have h8 : tickIter g Bomb.LIFETIME = ((tickIter g (Bomb.LIFETIME - 1)).1).tick_bombs := rfl
    have hag := tick_bombs_agents ((tickIter g (Bomb.LIFETIME - 1)).1) b.owner_id hlen7
    have hmem : ({ b with timer := 0 } : Bomb) ∈ (tickIter g Bomb.LIFETIME).2 := by
      have hx : ({ b with timer := 0 } : Bomb) ∈
          (tickIter g Bomb.LIFETIME).2.filter (fun c => c.x == b.x && c.y == b.y) := by
        rw [hfl8]
        exact List.mem_singleton_self _
      exact List.mem_of_mem_filter hx
    refine ⟨?_, ?_⟩
    · rw [h8, hag]
    · have hpos : 0 < (tickIter g Bomb.LIFETIME).2.countP (fun c => c.owner_id == b.owner_id) :=
        List.countP_pos_iff.2 ⟨_, hmem, by simp⟩
      omega

/-- Witness for C4 on a concrete game: one full-timer bomb at (9, 5). -/
theorem claim_C4_witness :
    gFresh.bombs.filter (fun c => c.x == (9 : Int) && c.y == (5 : Int)) =
      [{ owner_id := 0, x := 9, y := 5, timer := 8, range := 3 }] ∧
    (tickIter gFresh Bomb.LIFETIME).2.filter (fun c => c.x == (9 : Int) && c.y == (5 : Int)) =
      [{ owner_id := 0, x := 9, y := 5, timer := 0, range := 3 }] ∧
    (tickIter gFresh Bomb.LIFETIME).1.bombs.filter
      (fun c => c.x == (9 : Int) && c.y == (5 : Int)) = [] :=
  ⟨by decide,
   (claim_C4 gFresh { owner_id := 0, x := 9, y := 5, timer := 8, range := 3 }
     (by decide) rfl).2.2.1,
   (claim_C4 gFresh { owner_id := 0, x := 9, y := 5, timer := 8, range := 3 }
     (by decide) rfl).2.2.2.1⟩

/-! ## C6 — malformed actions disqualify without state mutation -/

theorem parse_action_snd (g : Game) (i : Nat) (action : String) :
    (g.parse_action i action).2 = parseTriple action := rfl

theorem parse_action_bombs (g : Game) (i : Nat) (action : String) :
    (g.parse_action i action).1.bombs = g.bombs := rfl

theorem parse_action_grid (g : Game) (i : Nat) (action : String) :
    (g.parse_action i action).1.grid = g.grid := rfl

theorem parse_action_agents_len (g : Game) (i : Nat) (action : String) :
    (g.parse_action i action).1.agents.length = g.agents.length :=
  length_updateAt _ _ _

theorem agentAt_parse (g : Game) (i : Nat) (action : String) (hi : i < g.agents.length) :
    agentAt (g.parse_action i action).1 i =
      { agentAt g i with message := parseMessage action (agentAt g i).message } :=
  getD_updateAt_self _ _ _ _ hi

theorem disqualify_bombs (g : Game) (i : Nat) : (g.disqualify i).bombs = g.bombs := rfl

theorem disqualify_grid (g : Game) (i : Nat) : (g.disqualify i).grid = g.grid := rfl

theorem agentAt_disqualify (g : Game) (i : Nat) (hi : i < g.agents.length) :
    agentAt (g.disqualify i) i = { agentAt g i with disqualified := true } :=
  getD_updateAt_self _ _ _ _ hi

/-- In every failure case named by the claim, `process_agent_actions` runs the
`except ValueError` handler on the message-updated state. -/
theorem process_action_fail_eq (g : Game) (i : Nat) (action : String)
    (hfail :
      parseTriple action = none ∨
      ∃ cmd x y, parseTriple action = some (cmd, x, y) ∧
        (¬ in_bounds x y = true ∨ (cmd ≠ "BOMB" ∧ cmd ≠ "MOVE"))) :
    g.process_action i action = ((g.parse_action i action).1).disqualify i := by
  rcases hfail with hnone | ⟨cmd, x, y, hp, hbad⟩
  · unfold Game.process_action
    rw [parse_action_snd, hnone]
    rfl
  · unfold Game.process_action
    rw [parse_action_snd, hp]
    simp only [processParsed]
    by_cases hib : in_bounds x y = true
    · rcases hbad with hoob | ⟨hnb, hnm⟩
      · exact absurd hib hoob
      · rw [if_neg (show ¬ ¬ in_bounds x y = true from fun hc => hc hib),
          if_neg hnb, if_neg hnm]
    · simp [hib]

/-- `disqualified` survives any single `updateAt` whose function either sets
it or keeps it. -/
theorem getD_update_disq (ags : List Agent) (i2 j : Nat) (f : Agent → Agent)
    (hf : ∀ a, (f a).disqualified = true ∨ (f a).disqualified = a.disqualified)
    (hd : (ags.getD j default).disqualified = true) :
    ((updateAt ags i2 f).getD j default).disqualified = true := by
  by_cases hij : i2 = j
  · subst hij
    by_cases hlen : i2 < ags.length
    · rw [getD_updateAt_self ags i2 f default hlen]
      rcases hf (ags.getD i2 default) with h1 | h1
      · exact h1
      · rw [h1]
        exact hd
    · rw [updateAt_of_le ags i2 f (by omega)]
      exact hd
  · rw [getD_updateAt_ne ags i2 j f default hij]
    exact hd

theorem disq_mono_parse (g : Game) (i2 : Nat) (a2 : String) (j : Nat)
    (hd : (agentAt g j).disqualified = true) :
    (agentAt (g.parse_action i2 a2).1 j).disqualified = true :=
  getD_update_disq _ _ _ _ (fun _ => Or.inr rfl) hd

theorem disq_mono_disqualify (g : Game) (i2 j : Nat)
    (hd : (agentAt g j).disqualified = true) :
    (agentAt (g.disqualify i2) j).disqualified = true :=
  getD_update_disq _ _ _ _ (fun _ => Or.inl rfl) hd

theorem disq_mono_placeBomb (g : Game) (i2 j : Nat)
    (hd : (agentAt g j).disqualified = true) :
    (agentAt (g.placeBomb i2) j).disqualified = true := by
  unfold Game.placeBomb
  split
  · split
    · exact getD_update_disq _ _ _ _ (fun _ => Or.inr rfl) hd
    · exact hd
  · exact hd

theorem disq_mono_moveToward (g : Game) (i2 : Nat) (x' y' : Int) (j : Nat)
    (hd : (agentAt g j).disqualified = true) :
    (agentAt (g.moveToward i2 x' y') j).disqualified = true := by
  unfold Game.moveToward
  split
  · exact getD_update_disq _ _ _ _ (fun _ => Or.inr rfl) hd
  · exact getD_update_disq _ _ _ _ (fun _ => Or.inr rfl) hd

theorem disq_mono_move (g : Game) (i2 : Nat) (x y : Int) (g' : Game)
    (hmv : g.move i2 x y = .ok g') (j : Nat)
    (hd : (agentAt g j).disqualified = true) :
    (agentAt g' j).disqualified = true := by
  unfold Game.move at hmv
  split at hmv
  · cases hmv
    exact getD_update_disq _ _ _ _ (fun _ => Or.inr rfl) hd
  · split at hmv
    · cases hmv
      exact disq_mono_moveToward _ _ _ _ _ hd
    · split at hmv
      · cases hmv
      · cases hmv
        exact disq_mono_moveToward _ _ _ _ _ hd

/-- No call of `process_agent_actions` ever clears a disqualified flag. -/
theorem process_action_disq_mono (h : Game) (i2 : Nat) (a2 : String) (j : Nat)
    (hd : (agentAt h j).disqualified = true) :
    (agentAt (h.process_action i2 a2) j).disqualified = true := by
  have h1 := disq_mono_parse h i2 a2 j hd
  unfold Game.process_action
  cases hq : (h.parse_action i2 a2).2 with
  | none =>
    simp only [processParsed]
    exact disq_mono_disqualify _ _ _ h1
  | some t =>
    obtain ⟨cmd, x, y⟩ := t
    simp only [processParsed]
    split
    · exact disq_mono_disqualify _ _ _ h1
    · split
      · split
        · next g3 hmv => exact disq_mono_move _ _ _ _ _ hmv _ (disq_mono_placeBomb _ _ _ h1)
        · next hmv => exact disq_mono_disqualify _ _ _ (disq_mono_placeBomb _ _ _ h1)
      · split
        · split
          · next g3 hmv => exact disq_mono_move _ _ _ _ _ hmv _ h1
          · next hmv => exact disq_mono_disqualify _ _ _ h1
        · exact disq_mono_disqualify _ _ _ h1

/-- **C6**: an action with too few tokens, non-integer coordinates,
out-of-bounds coordinates, or an unknown command permanently disqualifies the
agent and mutates neither its position, its bomb count, the bomb list, the
grid, nor any score. -/
theorem claim_C6 (g : Game) (i : Nat) (action : String) (hi : i < g.agents.length)
    (hfail :
      parseTriple action = none ∨
      ∃ cmd x y, parseTriple action = some (cmd, x, y) ∧
        (¬ in_bounds x y = true ∨ (cmd ≠ "BOMB" ∧ cmd ≠ "MOVE"))) :
    (agentAt (g.process_action i action) i).disqualified = true ∧
    (agentAt (g.process_action i action) i).x = (agentAt g i).x ∧
    (agentAt (g.process_action i action) i).y = (agentAt g i).y ∧
    (agentAt (g.process_action i action) i).bombs_left = (agentAt g i).bombs_left ∧
    (agentAt (g.process_action i action) i).boxes_blown_up = (agentAt g i).boxes_blown_up ∧
    (g.process_action i action).bombs = g.bombs ∧
    (g.process_action i action).grid = g.grid ∧
    (∀ (h : Game) (i2 j : Nat) (a2 : String), (agentAt h j).disqualified = true →
      (agentAt (h.process_action i2 a2) j).disqualified = true) := by
  have heq := process_action_fail_eq g i action hfail
  have hi1 : i < (g.parse_action i action).1.agents.length := by
    rw [parse_action_agents_len]
    exact hi
  have hagent : agentAt (g.process_action i action) i =
      { agentAt g i with
        message := parseMessage action (agentAt g i).message, disqualified := true } := by
    rw [heq, agentAt_disqualify _ _ hi1, agentAt_parse _ _ _ hi]
  refine ⟨?_, ?_, ?_, ?_, ?_, ?_, ?_, ?_⟩
  · rw [hagent]
  · rw [hagent]
  · rw [hagent]
  · rw [hagent]
  · rw [hagent]
  · rw [heq, disqualify_bombs, parse_action_bombs]
  · rw [heq, disqualify_grid, parse_action_grid]
  · intro h i2 j a2 hd
    exact process_action_disq_mono h i2 a2 j hd

/-- Witness for C6: the action "DIE" (one token) on the open game. -/
theorem claim_C6_witness :
    (0 < gOpen.agents.length ∧ parseTriple "DIE" = none) ∧
    (agentAt (gOpen.process_action 0 "DIE") 0).disqualified = true ∧
    (agentAt (gOpen.process_action 0 "DIE") 0).x = (agentAt gOpen 0).x ∧
    (gOpen.process_action 0 "DIE").bombs = gOpen.bombs :=
  ⟨⟨by decide, by decide⟩,
   (claim_C6 gOpen 0 "DIE" (by decide) (Or.inl (by decide))).1,
   (claim_C6 gOpen 0 "DIE" (by decide) (Or.inl (by decide))).2.1,
   (claim_C6 gOpen 0 "DIE" (by decide) (Or.inl (by decide))).2.2.2.2.2.1⟩

/-! ## C9 / C10 — destination fallback of `Game.move` -/

/-- Python's `min(..., key=k)` returns the first element attaining the
minimal key: the list splits at the result, everything before it having a
strictly larger key and nothing anywhere a smaller one. -/
theorem pyMin_spec (k : Coord → Nat) :
    ∀ (rest : List Coord) (c0 m : Coord), pyMin (c0 :: rest) k = some m →
      ∃ pre post, c0 :: rest = pre ++ m :: post ∧
        (∀ e ∈ pre, k m < k e) ∧ ∀ e ∈ c0 :: rest, k m ≤ k e := by
  intro rest
  induction rest with
  | nil =>
    intro c0 m hm
    simp only [pyMin, List.foldl_nil, Option.some.injEq] at hm
    subst hm
    exact ⟨[], [], rfl, by simp, by simp⟩
  | cons c1 rs ih =>
    intro c0 m hm
    simp only [pyMin, List.foldl_cons, Option.some.injEq] at hm
    by_cases h : k c1 < k c0
    · rw [if_pos h] at hm
      have hsub : pyMin (c1 :: rs) k = some m := by
        simp only [pyMin, Option.some.injEq]
        exact hm
      obtain ⟨pre, post, hdec, hstrict, hmin⟩ := ih c1 m hsub
      refine ⟨c0 :: pre, post, by rw [List.cons_append, hdec], ?_, ?_⟩
      · intro e he
        rcases List.mem_cons.1 he with rfl | he2
        · calc k m ≤ k c1 := hmin c1 (List.mem_cons_self _ _)
            _ < k e := h
        · exact hstrict e he2
      · intro e he
        rcases List.mem_cons.1 he with rfl | he2
        · exact le_of_lt (lt_of_le_of_lt (hmin c1 (List.mem_cons_self _ _)) h)
        · exact hmin e he2
    · rw [if_neg h] at hm
      have hle : k c0 ≤ k c1 := le_of_not_lt h
      have hsub : pyMin (c0 :: rs) k = some m := by
        simp only [pyMin, Option.some.injEq]
        exact hm
      obtain ⟨pre, post, hdec, hstrict, hmin⟩ := ih c0 m hsub
      cases pre with
      | nil =>
        simp only [List.nil_append] at hdec
        have h1 : c0 = m := List.head_eq_of_cons_eq hdec
        refine ⟨[], c1 :: rs, by rw [List.nil_append, ← h1], by simp, ?_⟩
        intro e he
        rcases List.mem_cons.1 he with rfl | he2
        · rw [h1]
        · rcases List.mem_cons.1 he2 with rfl | he3
          · rw [← h1]
            exact hle
          · exact hmin e (List.mem_cons_of_mem _ he3)
      | cons p0 pre2 =>
        have h1 : c0 = p0 := List.head_eq_of_cons_eq hdec
        have h2 : rs = pre2 ++ m :: post := List.tail_eq_of_cons_eq hdec
        have hmc0 : k m < k c0 := by
          rw [h1]
          exact hstrict p0 (List.mem_cons_self _ _)
        refine ⟨c0 :: c1 :: pre2, post, ?_, ?_, ?_⟩
        · rw [List.cons_append, List.cons_append, ← h2]
        · intro e he
          rcases List.mem_cons.1 he with rfl | he2
          · exact hmc0
          · rcases List.mem_cons.1 he2 with rfl | he3
            · exact lt_of_lt_of_le hmc0 hle
            · exact hstrict e (List.mem_cons_of_mem _ he3)
        · intro e he
          rcases List.mem_cons.1 he with rfl | he2
          · exact le_of_lt hmc0
          · rcases List.mem_cons.1 he2 with rfl | he3
            · exact le_of_lt (lt_of_lt_of_le hmc0 hle)
            · exact hmin e (List.mem_cons_of_mem _ he3)

/-- **C9 (counterexample)**: with agent 0 standing at (0, 0) on a bomb from a
previous turn, `MOVE 0 0` targets an unwalkable cell with walkable neighbors,
yet no substitution happens: the agent is set idle in place instead of moving
toward the fallback cell (1, 0). -/
theorem claim_C9_counterexample :
    gC9.walkable 0 0 = false ∧
    candidates gC9 0 0 = [(1, 0), (0, 1)] ∧
    pyMin (candidates gC9 0 0) (fun c => manh ((agentAt gC9 0).x, (agentAt gC9 0).y) c) =
      some (1, 0) ∧
    (gC9.move 0 0 0).toOption =
      some { gC9 with agents := updateAt gC9.agents 0 (fun ag => { ag with state := .idle }) } ∧
    { gC9 with agents := updateAt gC9.agents 0 (fun ag => { ag with state := .idle }) } ≠
      gC9.moveToward 0 1 0 ∧
    (agentAt (gC9.moveToward 0 1 0) 0).x = 1 ∧
    (agentAt (gC9.moveToward 0 1 0) 0).y = 0 := by
  set_option maxRecDepth 400000 in decide

/-- **C9 (amended)**: when the target differs from the agent's own position
and is not walkable but has a walkable adjacent cell, the target is replaced
by the first (in `DIRECTIONS` order) walkable adjacent cell of minimal
Manhattan distance to the agent, and the move proceeds toward it; when the
unwalkable target is the agent's own cell the move is a no-op instead. -/
theorem claim_C9_amended (g : Game) (i : Nat) (x y : Int)
    (hneq : ¬ ((agentAt g i).x = x ∧ (agentAt g i).y = y))
    (hnw : ¬ g.walkable x y = true)
    (hc : candidates g x y ≠ []) :
    ∃ t pre post,
      pyMin (candidates g x y) (fun c => manh ((agentAt g i).x, (agentAt g i).y) c) = some t ∧
      candidates g x y = pre ++ t :: post ∧
      (∀ e ∈ pre, manh ((agentAt g i).x, (agentAt g i).y) t <
        manh ((agentAt g i).x, (agentAt g i).y) e) ∧
      (∀ e ∈ candidates g x y, manh ((agentAt g i).x, (agentAt g i).y) t ≤
        manh ((agentAt g i).x, (agentAt g i).y) e) ∧
      g.move i x y = .ok (g.moveToward i t.1 t.2) := by
  obtain ⟨c0, rest, hrep⟩ : ∃ c0 rest, candidates g x y = c0 :: rest := by
    cases hcand : candidates g x y with
    | nil => exact absurd hcand hc
    | cons a l => exact ⟨a, l, rfl⟩
  rcases hmin : pyMin (candidates g x y)
      (fun c => manh ((agentAt g i).x, (agentAt g i).y) c) with _ | t
  · rw [hrep] at hmin
    simp [pyMin] at hmin
  · rw [hrep] at hmin
    obtain ⟨pre, post, hdec, hstrict, hall⟩ := pyMin_spec _ rest c0 t hmin
    have hmin2 : pyMin (candidates g x y)
        (fun c => manh ((agentAt g i).x, (agentAt g i).y) c) = some t := by
      rw [hrep]
      exact hmin
    refine ⟨t, pre, post, rfl, ?_, hstrict, ?_, ?_⟩
    · rw [hrep]
      exact hdec
    · intro e he
      rw [hrep] at he
      exact hall e he
    · unfold Game.move
      rw [if_neg hneq, if_neg hnw, hmin2]

/-- Witness for the amended C9: target (3, 1) is a box; the fallback picks
(3, 0), the first of the two Manhattan-minimal walkable neighbors. -/
theorem claim_C9_amended_witness :
    (¬ ((agentAt gFall 0).x = 3 ∧ (agentAt gFall 0).y = 1) ∧
      ¬ gFall.walkable 3 1 = true ∧ candidates gFall 3 1 ≠ []) ∧
    (∃ t pre post,
      pyMin (candidates gFall 3 1) (fun c => manh ((agentAt gFall 0).x, (agentAt gFall 0).y) c) =
        some t ∧
      candidates gFall 3 1 = pre ++ t :: post ∧
      (∀ e ∈ pre, manh ((agentAt gFall 0).x, (agentAt gFall 0).y) t <
        manh ((agentAt gFall 0).x, (agentAt gFall 0).y) e) ∧
      (∀ e ∈ candidates gFall 3 1, manh ((agentAt gFall 0).x, (agentAt gFall 0).y) t ≤
        manh ((agentAt gFall 0).x, (agentAt gFall 0).y) e) ∧
      gFall.move 0 3 1 = .ok (gFall.moveToward 0 t.1 t.2)) :=
  ⟨⟨by decide, by decide, by decide⟩,
   claim_C9_amended gFall 0 3 1 (by decide) (by decide) (by decide)⟩

theorem walkable_placeBomb (g : Game) (i : Nat) (x y : Int) :
    (g.placeBomb i).walkable x y = g.walkable x y := by
  unfold Game.placeBomb
  split
  · split
    · next hfree =>
      unfold Game.walkable
      by_cases hib : in_bounds x y = true
      · rcases hf : g.bombs.find? (fun b => b.x == x && b.y == y) with _ | b0
        · rw [List.find?_append, hf]
          simp only [Option.none_or]
          by_cases hat : ((Bomb.init (agentAt g i).id (agentAt g i).x (agentAt g i).y).x == x &&
              (Bomb.init (agentAt g i).id (agentAt g i).x (agentAt g i).y).y == y) = true
          · simp only [List.find?_cons, hat, List.find?_nil]
            have : ¬ (Bomb.init (agentAt g i).id (agentAt g i).x (agentAt g i).y).timer <
                Bomb.LIFETIME := by
              simp [Bomb.init]
            simp [this]
          · simp only [List.find?_cons, hat, Bool.false_eq_true, List.find?_nil]
        · rw [List.find?_append, hf]
          rfl
      · simp [hib]
    · rfl
  · rfl

theorem candidates_placeBomb (g : Game) (i : Nat) (x y : Int) :
    candidates (g.placeBomb i) x y = candidates g x y := by
  unfold candidates
  apply List.filter_congr
  intro c _
  rw [walkable_placeBomb]

theorem placeBomb_agent_pos (g : Game) (i : Nat) :
    (agentAt (g.placeBomb i) i).x = (agentAt g i).x ∧
    (agentAt (g.placeBomb i) i).y = (agentAt g i).y := by
  unfold Game.placeBomb
  split
  · split
    · by_cases hlen : i < g.agents.length
      · unfold agentAt
        show ((updateAt g.agents i _).getD i default).x = _ ∧ _
        rw [getD_updateAt_self _ _ _ _ hlen]
        exact ⟨rfl, rfl⟩
      · unfold agentAt
        show ((updateAt g.agents i _).getD i default).x = _ ∧ _
        rw [updateAt_of_le _ _ _ (by omega)]
        exact ⟨rfl, rfl⟩
    · exact ⟨rfl, rfl⟩
  · exact ⟨rfl, rfl⟩

theorem parse_agent_pos (g : Game) (i : Nat) (action : String) :
    (agentAt (g.parse_action i action).1 i).x = (agentAt g i).x ∧
    (agentAt (g.parse_action i action).1 i).y = (agentAt g i).y := by
  by_cases hlen : i < g.agents.length
  · unfold agentAt Game.parse_action
    show ((updateAt g.agents i _).getD i default).x = _ ∧ _
    rw [getD_updateAt_self _ _ _ _ hlen]
    exact ⟨rfl, rfl⟩
  · unfold agentAt Game.parse_action
    show ((updateAt g.agents i _).getD i default).x = _ ∧ _
    rw [updateAt_of_le _ _ _ (by omega)]
    exact ⟨rfl, rfl⟩

theorem placeBomb_agents_len (g : Game) (i : Nat) :
    (g.placeBomb i).agents.length = g.agents.length := by
  unfold Game.placeBomb
  split
  · split
    · exact length_updateAt _ _ _
    · rfl
  · rfl

/-- `min` over an empty candidate list raises `ValueError`. -/
theorem move_error_of_no_candidates (g : Game) (i : Nat) (x y : Int)
    (hneq : ¬ ((agentAt g i).x = x ∧ (agentAt g i).y = y))
    (hnw : ¬ g.walkable x y = true)
    (hc : candidates g x y = []) :
    g.move i x y = .error () := by
  unfold Game.move
  rw [if_neg hneq, if_neg hnw, hc]
  rfl

/-- **C10 (counterexample)**: a `BOMB` action whose in-bounds target has no
walkable neighbor does disqualify, but the bomb was already placed and the
capacity decremented; and a `MOVE` onto the agent's own (unwalkable,
neighborless) cell does not disqualify at all. -/
theorem claim_C10_counterexample :
    (agentAt (gC10.process_action 0 "BOMB 0 0") 0).disqualified = true ∧
    (agentAt gC10 0).bombs_left = 1 ∧
    (agentAt (gC10.process_action 0 "BOMB 0 0") 0).bombs_left = 0 ∧
    (gC10.process_action 0 "BOMB 0 0").bombs ≠ gC10.bombs ∧
    in_bounds 0 0 = true ∧
    gC10b.walkable 0 0 = false ∧
    candidates gC10b 0 0 = [] ∧
    (agentAt gC10b 0).x = 0 ∧ (agentAt gC10b 0).y = 0 ∧
    (agentAt (gC10b.process_action 0 "MOVE 0 0") 0).disqualified = false := by
  set_option maxRecDepth 400000 in decide

/-- **C10 (amended)**: an otherwise valid action on an in-bounds, unwalkable
target with no walkable adjacent cell — the target differing from the agent's
own position — disqualifies the agent and leaves its position unchanged; for
a `MOVE` action the bomb list and bomb capacity are also untouched (a `BOMB`
action has already placed its bomb before the failure). -/
theorem claim_C10_amended (g : Game) (i : Nat) (action cmd : String) (x y : Int)
    (hi : i < g.agents.length)
    (hp : parseTriple action = some (cmd, x, y))
    (hcmd : cmd = "MOVE" ∨ cmd = "BOMB")
    (hin : in_bounds x y = true)
    (hnw : ¬ g.walkable x y = true)
    (hcand : candidates g x y = [])
    (hneq : ¬ ((agentAt g i).x = x ∧ (agentAt g i).y = y)) :
    (agentAt (g.process_action i action) i).disqualified = true ∧
    (agentAt (g.process_action i action) i).x = (agentAt g i).x ∧
    (agentAt (g.process_action i action) i).y = (agentAt g i).y ∧
    (cmd = "MOVE" →
      (g.process_action i action).bombs = g.bombs ∧
      (agentAt (g.process_action i action) i).bombs_left = (agentAt g i).bombs_left) := by
  have hpos := parse_agent_pos g i action
  have hmv1 : ((g.parse_action i action).1).move i x y = .error () := by
    apply move_error_of_no_candidates
    · rw [hpos.1, hpos.2]
      exact hneq
    · exact hnw
    · exact hcand
  have hmv2 : (((g.parse_action i action).1).placeBomb i).move i x y = .error () := by
    apply move_error_of_no_candidates
    · have hpos2 := placeBomb_agent_pos ((g.parse_action i action).1) i
      rw [hpos2.1, hpos2.2, hpos.1, hpos.2]
      exact hneq
    · rw [walkable_placeBomb]
      exact hnw
    · rw [candidates_placeBomb]
      exact hcand
  have hlen1 : i < (g.parse_action i action).1.agents.length := by
    rw [parse_action_agents_len]
    exact hi
  rcases hcmd with hM | hB
  · subst hM
    have hproc : g.process_action i action = ((g.parse_action i action).1).disqualify i := by
      unfold Game.process_action
      rw [parse_action_snd, hp]
      simp only [processParsed]
      rw [if_neg (fun hcontra => hcontra hin),
        if_neg (show ¬ ("MOVE" : String) = "BOMB" by decide), if_pos trivial, hmv1]
    rw [hproc, agentAt_disqualify _ _ hlen1, agentAt_parse _ _ _ hi]
    refine ⟨rfl, rfl, rfl, fun _ => ⟨?_, rfl⟩⟩
    rw [disqualify_bombs, parse_action_bombs]
  · subst hB
    have hproc : g.process_action i action =
        (((g.parse_action i action).1).placeBomb i).disqualify i := by
      unfold Game.process_action
      rw [parse_action_snd, hp]
      simp only [processParsed]
      rw [if_neg (fun hcontra => hcontra hin),
        if_pos trivial, hmv2]
    have hlen2 : i < (((g.parse_action i action).1).placeBomb i).agents.length := by
      rw [placeBomb_agents_len]
      exact hlen1
    have hpos2 := placeBomb_agent_pos ((g.parse_action i action).1) i
    rw [hproc, agentAt_disqualify _ _ hlen2]
    refine ⟨rfl, ?_, ?_, fun hcontra => absurd hcontra (by decide)⟩
    · show (agentAt (((g.parse_action i action).1).placeBomb i) i).x = _
      rw [hpos2.1, hpos.1]
    · show (agentAt (((g.parse_action i action).1).placeBomb i) i).y = _
      rw [hpos2.2, hpos.2]

/-- Witness for the amended C10: `MOVE 0 0` toward the boxed-in corner from
(5, 5) disqualifies agent 0 in place. -/
theorem claim_C10_amended_witness :
    (0 < gC10.agents.length ∧ parseTriple "MOVE 0 0" = some ("MOVE", 0, 0) ∧
      in_bounds 0 0 = true ∧ ¬ gC10.walkable 0 0 = true ∧ candidates gC10 0 0 = [] ∧
      ¬ ((agentAt gC10 0).x = 0 ∧ (agentAt gC10 0).y = 0)) ∧
    (agentAt (gC10.process_action 0 "MOVE 0 0") 0).disqualified = true ∧
    (agentAt (gC10.process_action 0 "MOVE 0 0") 0).x = (agentAt gC10 0).x ∧
    (agentAt (gC10.process_action 0 "MOVE 0 0") 0).y = (agentAt gC10 0).y ∧
    ("MOVE" = "MOVE" →
      (gC10.process_action 0 "MOVE 0 0").bombs = gC10.bombs ∧
      (agentAt (gC10.process_action 0 "MOVE 0 0") 0).bombs_left = (agentAt gC10 0).bombs_left) :=
  ⟨⟨by decide, by decide, by decide, by decide, by decide, by decide⟩,
   claim_C10_amended gC10 0 "MOVE 0 0" "MOVE" 0 0 (by decide) (by decide) (Or.inl rfl)
     (by decide) (by decide) (by decide) (by decide)⟩

/-! ## Explosion-propagation lemmas: the bomb scan at one cell -/

theorem scanCell_nomatch (nx ny : Int) (bombs : List Bomb) (proc : Finset Coord)
    (q : List Bomb) (ags : List Agent)
    (h : ∀ b ∈ bombs, ¬ (b.x = nx ∧ b.y = ny)) :
    scanCell nx ny bombs proc q ags = ⟨bombs, proc, q, ags, false⟩ := by
  induction bombs with
  | nil => rfl
  | cons b rest ih =>
    have hb := h b (List.mem_cons_self _ _)
    simp only [scanCell, if_neg hb, ih (fun b2 hb2 => h b2 (List.mem_cons_of_mem _ hb2))]

theorem scanCell_found (nx ny : Int) (bombs : List Bomb) (proc : Finset Coord)
    (q : List Bomb) (ags : List Agent) :
    (scanCell nx ny bombs proc q ags).found =
      bombs.any (fun b => b.x == nx && b.y == ny) := by
  induction bombs generalizing proc q ags with
  | nil => rfl
  | cons b rest ih =>
    simp only [scanCell, List.any_cons]
    by_cases hb : b.x = nx ∧ b.y = ny
    · rw [if_pos hb]
      have hbeq : (b.x == nx && b.y == ny) = true := by
        simp [hb.1, hb.2]
      split <;> simp [hbeq]
    · rw [if_neg hb]
      have hbeq : (b.x == nx && b.y == ny) = false := by
        rcases not_and_or.1 hb with hx | hy
        · simp [hx]
        · simp [hy]
      simp only [hbeq, Bool.false_or]
      exact ih proc q ags

theorem scanCell_positions (nx ny : Int) (bombs : List Bomb) (proc : Finset Coord)
    (q : List Bomb) (ags : List Agent) :
    (scanCell nx ny bombs proc q ags).bombs.map (fun c => (c.x, c.y)) =
      bombs.map (fun c => (c.x, c.y)) := by
  induction bombs generalizing proc q ags with
  | nil => rfl
  | cons b rest ih =>
    simp only [scanCell]
    by_cases hb : b.x = nx ∧ b.y = ny
    · rw [if_pos hb]
      by_cases ht : 0 < b.timer ∧ (b.x, b.y) ∉ proc
      · rw [if_pos ht]
        simp only [List.map_cons, ih]
      · rw [if_neg ht]
        simp only [List.map_cons, ih]
    · rw [if_neg hb]
      simp only [List.map_cons, ih]

theorem scanCell_proc_mono (nx ny : Int) (bombs : List Bomb) (proc : Finset Coord)
    (q : List Bomb) (ags : List Agent) :
    proc ⊆ (scanCell nx ny bombs proc q ags).processed := by
  induction bombs generalizing proc q ags with
  | nil => exact Finset.Subset.refl _
  | cons b rest ih =>
    simp only [scanCell]
    by_cases hb : b.x = nx ∧ b.y = ny
    · rw [if_pos hb]
      by_cases ht : 0 < b.timer ∧ (b.x, b.y) ∉ proc
      · rw [if_pos ht]
        exact (Finset.subset_insert _ _).trans (ih _ _ _)
      · rw [if_neg ht]
        exact ih _ _ _
    · rw [if_neg hb]
      exact ih _ _ _

theorem scanCell_queue_mono (nx ny : Int) (bombs : List Bomb) (proc : Finset Coord)
    (q : List Bomb) (ags : List Agent) :
    ∃ ext, (scanCell nx ny bombs proc q ags).queue = q ++ ext := by
  induction bombs generalizing proc q ags with
  | nil => exact ⟨[], by simp [scanCell]⟩
  | cons b rest ih =>
    simp only [scanCell]
    by_cases hb : b.x = nx ∧ b.y = ny
    · rw [if_pos hb]
      by_cases ht : 0 < b.timer ∧ (b.x, b.y) ∉ proc
      · rw [if_pos ht]
        by_cases hq : ({ b with timer := 0 } : Bomb) ∈ q
        · rw [if_pos hq]
          exact ih _ _ _
        · rw [if_neg hq]
          obtain ⟨ext, hext⟩ := ih (insert (b.x, b.y) proc) (q ++ [{ b with timer := 0 }])
            (bumpBombsLeft ags b.owner_id)
          exact ⟨{ b with timer := 0 } :: ext, by rw [hext, List.append_assoc]; rfl⟩
      · rw [if_neg ht]
        exact ih _ _ _
    · rw [if_neg hb]
      exact ih _ _ _

theorem getD_bump_fields (ags : List Agent) (i j : Nat) :
    ((bumpBombsLeft ags i).getD j default).boxes_blown_up =
        (ags.getD j default).boxes_blown_up ∧
    ((bumpBombsLeft ags i).getD j default).disqualified =
        (ags.getD j default).disqualified := by
  by_cases hij : i = j
  · subst hij
    by_cases hlen : i < ags.length
    · unfold bumpBombsLeft
      rw [getD_updateAt_self _ _ _ _ hlen]
      exact ⟨rfl, rfl⟩
    · unfold bumpBombsLeft
      rw [updateAt_of_le _ _ _ (by omega)]
      exact ⟨rfl, rfl⟩
  · unfold bumpBombsLeft
    rw [getD_updateAt_ne _ _ _ _ _ hij]
    exact ⟨rfl, rfl⟩

theorem bump_len (ags : List Agent) (i : Nat) :
    (bumpBombsLeft ags i).length = ags.length :=
  length_updateAt _ _ _

theorem scanCell_agents_len (nx ny : Int) (bombs : List Bomb) (proc : Finset Coord)
    (q : List Bomb) (ags : List Agent) :
    (scanCell nx ny bombs proc q ags).agents.length = ags.length := by
  induction bombs generalizing proc q ags with
  | nil => rfl
  | cons b rest ih =>
    simp only [scanCell]
    by_cases hb : b.x = nx ∧ b.y = ny
    · rw [if_pos hb]
      by_cases ht : 0 < b.timer ∧ (b.x, b.y) ∉ proc
      · rw [if_pos ht]
        rw [show ((if ({ b with timer := 0 } : Bomb) ∈ q then q
            else q ++ [{ b with timer := 0 }])) = (if ({ b with timer := 0 } : Bomb) ∈ q then q
            else q ++ [{ b with timer := 0 }]) from rfl]
        rw [ih]
        exact bump_len ags b.owner_id
      · rw [if_neg ht]
        exact ih _ _ _
    · rw [if_neg hb]
      exact ih _ _ _

theorem scanCell_agents_boxes (nx ny : Int) (bombs : List Bomb) (proc : Finset Coord)
    (q : List Bomb) (ags : List Agent) (j : Nat) :
    ((scanCell nx ny bombs proc q ags).agents.getD j default).boxes_blown_up =
      (ags.getD j default).boxes_blown_up := by
  induction bombs generalizing proc q ags with
  | nil => rfl
  | cons b rest ih =>
    simp only [scanCell]
    by_cases hb : b.x = nx ∧ b.y = ny
    · rw [if_pos hb]
      by_cases ht : 0 < b.timer ∧ (b.x, b.y) ∉ proc
      · rw [if_pos ht]
        rw [ih]
        exact (getD_bump_fields ags b.owner_id j).1
      · rw [if_neg ht]
        exact ih _ _ _
    · rw [if_neg hb]
      exact ih _ _ _

theorem scanCell_measure (nx ny : Int) (bombs : List Bomb) (proc : Finset Coord)
    (q : List Bomb) (ags : List Agent) :
    (scanCell nx ny bombs proc q ags).bombs.countP
        (fun b => decide ((b.x, b.y) ∉ (scanCell nx ny bombs proc q ags).processed)) +
      (scanCell nx ny bombs proc q ags).queue.length ≤
    bombs.countP (fun b => decide ((b.x, b.y) ∉ proc)) + q.length := by
  induction bombs generalizing proc q ags with
  | nil => simp [scanCell]
  | cons b rest ih =>
    simp only [scanCell]
    by_cases hb : b.x = nx ∧ b.y = ny
    · rw [if_pos hb]
      by_cases ht : 0 < b.timer ∧ (b.x, b.y) ∉ proc
      · rw [if_pos ht]
        simp only [List.countP_cons]
        have hin : ((b.x, b.y) : Coord) ∈
            (scanCell nx ny rest (insert (b.x, b.y) proc)
              (if ({ b with timer := 0 } : Bomb) ∈ q then q else q ++ [{ b with timer := 0 }])
              (bumpBombsLeft ags b.owner_id)).processed :=
          scanCell_proc_mono _ _ _ _ _ _ (Finset.mem_insert_self _ _)
        have hz : (decide ((({ b with timer := 0 } : Bomb).x,
            ({ b with timer := 0 } : Bomb).y) ∉
            (scanCell nx ny rest (insert (b.x, b.y) proc)
              (if ({ b with timer := 0 } : Bomb) ∈ q then q else q ++ [{ b with timer := 0 }])
              (bumpBombsLeft ags b.owner_id)).processed) : Bool) = false := by
          simp only [decide_eq_false_iff_not, not_not]
          exact hin
        rw [hz]
        simp only [if_false, Nat.add_zero, Bool.false_eq_true]
        have hcount : rest.countP (fun c => decide ((c.x, c.y) ∉ insert ((b.x, b.y) : Coord) proc)) ≤
            rest.countP (fun c => decide ((c.x, c.y) ∉ proc)) := by
          apply List.countP_mono_left
          intro c _ hc
          simp only [decide_eq_true_eq] at hc ⊢
          intro hmem
          exact hc (Finset.mem_insert_of_mem hmem)
        have hql : (if ({ b with timer := 0 } : Bomb) ∈ q then q
            else q ++ [{ b with timer := 0 }]).length ≤ q.length + 1 := by
          split
          · omega
          · simp
        have := ih (insert (b.x, b.y) proc)
          (if ({ b with timer := 0 } : Bomb) ∈ q then q else q ++ [{ b with timer := 0 }])
          (bumpBombsLeft ags b.owner_id)
        have hhead : (decide (((b.x, b.y) : Coord) ∉ proc) : Bool) = true := by
          simp only [decide_eq_true_eq]
          exact ht.2
        rw [hhead]
        simp only [if_true]
        omega
      · rw [if_neg ht]
        simp only [List.countP_cons]
        have hmono : ∀ pb : Bool, ∀ qb : Bool, (pb = true → qb = true) →
            (if pb = true then 1 else 0) + 0 ≤ (if qb = true then 1 else 0) + 0 := by
          intro pb qb himp
          cases pb <;> cases qb <;> simp_all
        have hsub := scanCell_proc_mono nx ny rest proc q ags
        have himp : (decide ((b.x, b.y) ∉ (scanCell nx ny rest proc q ags).processed) : Bool)
            = true → (decide (((b.x, b.y) : Coord) ∉ proc) : Bool) = true := by
          intro hc
          simp only [decide_eq_true_eq] at hc ⊢
          intro hmem
          exact hc (hsub hmem)
        have := ih proc q ags
        have hh := hmono (decide ((b.x, b.y) ∉ (scanCell nx ny rest proc q ags).processed))
          (decide (((b.x, b.y) : Coord) ∉ proc)) himp
        omega
    · rw [if_neg hb]
      simp only [List.countP_cons]
      have hsub := scanCell_proc_mono nx ny rest proc q ags
      have himp : (decide ((b.x, b.y) ∉ (scanCell nx ny rest proc q ags).processed) : Bool)
          = true → (decide (((b.x, b.y) : Coord) ∉ proc) : Bool) = true := by
        intro hc
        simp only [decide_eq_true_eq] at hc ⊢
        intro hmem
        exact hc (hsub hmem)
      have := ih proc q ags
      have hmono : ∀ pb : Bool, ∀ qb : Bool, (pb = true → qb = true) →
          (if pb = true then 1 else 0) ≤ (if qb = true then 1 else 0) := by
        intro pb qb himp2
        cases pb <;> cases qb <;> simp_all
      have hh := hmono (decide ((b.x, b.y) ∉ (scanCell nx ny rest proc q ags).processed))
        (decide (((b.x, b.y) : Coord) ∉ proc)) himp
      omega

/-- Full characterization of the scan at a cell holding exactly one live,
not-yet-queued bomb: its timer is forced to 0, its owner credited, the bomb
enqueued and its coordinate marked queued. -/
theorem scanCell_trigger (nx ny : Int) (bombs : List Bomb) (proc : Finset Coord)
    (q : List Bomb) (ags : List Agent) (b : Bomb)
    (hnd : (bombs.map (fun c => (c.x, c.y))).Nodup)
    (hmem : b ∈ bombs) (hx : b.x = nx) (hy : b.y = ny)
    (ht : 0 < b.timer) (hproc : (b.x, b.y) ∉ proc) :
    (scanCell nx ny bombs proc q ags).bombs =
      bombs.map (fun c => if c.x = nx ∧ c.y = ny then { c with timer := 0 } else c) ∧
    (scanCell nx ny bombs proc q ags).processed = insert (b.x, b.y) proc ∧
    (scanCell nx ny bombs proc q ags).queue =
      (if { b with timer := 0 } ∈ q then q else q ++ [{ b with timer := 0 }]) ∧
    (scanCell nx ny bombs proc q ags).agents = bumpBombsLeft ags b.owner_id ∧
    (scanCell nx ny bombs proc q ags).found = true := by
  induction bombs generalizing proc q ags with
  | nil => exact absurd hmem (List.not_mem_nil _)
  | cons b0 rest ih =>
    simp only [List.map_cons, List.nodup_cons] at hnd
    by_cases hb0 : b0.x = nx ∧ b0.y = ny
    · have hbe : b = b0 := by
        rcases List.mem_cons.1 hmem with rfl | hmem2
        · rfl
        · exfalso
          apply hnd.1
          have : ((b.x, b.y) : Coord) = (nx, ny) := by rw [hx, hy]
          have hb0p : ((b0.x, b0.y) : Coord) = (nx, ny) := by rw [hb0.1, hb0.2]
          rw [hb0p, ← this]
          exact List.mem_map_of_mem _ hmem2
      subst hbe
      have hrest : ∀ b2 ∈ rest, ¬ (b2.x = nx ∧ b2.y = ny) := by
        intro b2 hb2 hc
        apply hnd.1
        have : ((b2.x, b2.y) : Coord) = (b.x, b.y) := by
          rw [hc.1, hc.2, hb0.1, hb0.2]
        rw [← this]
        exact List.mem_map_of_mem _ hb2
      simp only [scanCell]
      rw [if_pos hb0, if_pos (show 0 < b.timer ∧ (b.x, b.y) ∉ proc from ⟨ht, hproc⟩),
        scanCell_nomatch nx ny rest (insert (b.x, b.y) proc) _ _ hrest]
      refine ⟨?_, rfl, rfl, rfl, rfl⟩
      rw [List.map_cons, if_pos hb0]
      have hmapid : rest.map (fun c => if c.x = nx ∧ c.y = ny then { c with timer := 0 } else c)
          = rest.map id :=
        List.map_congr_left (fun c hc => by rw [if_neg (hrest c hc)]; rfl)
      rw [hmapid, List.map_id]
    · have hmem2 : b ∈ rest := by
        rcases List.mem_cons.1 hmem with rfl | h2
        · exact absurd ⟨hx, hy⟩ hb0
        · exact h2
      obtain ⟨h1, h2, h3, h4, h5⟩ := ih proc q ags hnd.2 hmem2 hproc
      simp only [scanCell]
      rw [if_neg hb0]
      refine ⟨?_, h2, h3, h4, h5⟩
      rw [h1, List.map_cons, if_neg hb0]

/-- Centers of the bombs in a queue. -/
def centersQ (q : List Bomb) : Finset Coord :=
  (q.map (fun b => (b.x, b.y))).toFinset

theorem scanCell_proc_sub (nx ny : Int) (bombs : List Bomb) (proc : Finset Coord)
    (q : List Bomb) (ags : List Agent) :
    (scanCell nx ny bombs proc q ags).processed ⊆
      proc ∪ centersQ (scanCell nx ny bombs proc q ags).queue := by
  induction bombs generalizing proc q ags with
  | nil =>
    intro p hp
    exact Finset.mem_union_left _ hp
  | cons b rest ih =>
    simp only [scanCell]
    by_cases hb : b.x = nx ∧ b.y = ny
    · rw [if_pos hb]
      by_cases ht : 0 < b.timer ∧ (b.x, b.y) ∉ proc
      · rw [if_pos ht]
        intro p hp
        have hsub := ih (insert (b.x, b.y) proc)
          (if ({ b with timer := 0 } : Bomb) ∈ q then q else q ++ [{ b with timer := 0 }])
          (bumpBombsLeft ags b.owner_id)
        have hp2 := hsub hp
        rcases Finset.mem_union.1 hp2 with hp3 | hp3
        · rcases Finset.mem_insert.1 hp3 with rfl | hp4
          · apply Finset.mem_union_right
            have hbq : ({ b with timer := 0 } : Bomb) ∈
                (scanCell nx ny rest (insert (b.x, b.y) proc)
                  (if ({ b with timer := 0 } : Bomb) ∈ q then q
                    else q ++ [{ b with timer := 0 }])
                  (bumpBombsLeft ags b.owner_id)).queue := by
              obtain ⟨ext, hext⟩ := scanCell_queue_mono nx ny rest (insert (b.x, b.y) proc)
                (if ({ b with timer := 0 } : Bomb) ∈ q then q
                  else q ++ [{ b with timer := 0 }])
                (bumpBombsLeft ags b.owner_id)
              rw [hext]
              apply List.mem_append_left
              split
              · assumption
              · exact List.mem_append_right _ (List.mem_singleton_self _)
            show ((b.x, b.y) : Coord) ∈ centersQ ((scanCell nx ny rest (insert (b.x, b.y) proc)
              (if ({ b with timer := 0 } : Bomb) ∈ q then q
                else q ++ [{ b with timer := 0 }])
              (bumpBombsLeft ags b.owner_id)).queue)
            unfold centersQ
            rw [List.mem_toFinset]
            exact List.mem_map.2 ⟨{ b with timer := 0 }, hbq, rfl⟩
          · exact Finset.mem_union_left _ hp4
        · exact Finset.mem_union_right _ hp3
      · rw [if_neg ht]
        exact ih proc q ags
    · rw [if_neg hb]
      exact ih proc q ags

/-- The hit-dictionary invariant carried through one ray: keys are distinct,
in-bounds box cells; owner lists are duplicate-free. -/
def hitsInv (grid : Grid) (hits : List (Coord × List Nat)) : Prop :=
  (hits.map Prod.fst).Nodup ∧
  (∀ e ∈ hits, in_bounds e.1.1 e.1.2 = true ∧ cellAt grid e.1.1 e.1.2 = Cell.box) ∧
  (∀ e ∈ hits, e.2.Nodup)

theorem addHit_keys (hits : List (Coord × List Nat)) (c : Coord) (o : Nat) :
    (addHit hits c o).map Prod.fst = hits.map Prod.fst ∨
    (addHit hits c o).map Prod.fst = hits.map Prod.fst ++ [c] := by
  induction hits with
  | nil => exact Or.inr rfl
  | cons e rest ih =>
    obtain ⟨c', owners⟩ := e
    simp only [addHit]
    by_cases hc : c' = c
    · rw [if_pos hc]
      exact Or.inl rfl
    · rw [if_neg hc]
      rcases ih with h | h
      · exact Or.inl (by simp only [List.map_cons, h])
      · exact Or.inr (by simp only [List.map_cons, h, List.cons_append])

theorem addHit_keys_of_mem (hits : List (Coord × List Nat)) (c : Coord) (o : Nat)
    (hc : c ∈ hits.map Prod.fst) :
    (addHit hits c o).map Prod.fst = hits.map Prod.fst := by
  induction hits with
  | nil => simp at hc
  | cons e rest ih =>
    obtain ⟨c', owners⟩ := e
    simp only [addHit]
    by_cases h : c' = c
    · rw [if_pos h]
      simp
    · rw [if_neg h]
      simp only [List.map_cons]
      congr 1
      apply ih
      rcases List.mem_cons.1 hc with hx | hx
      · exact absurd hx.symm h
      · exact hx

theorem addHit_mem (hits : List (Coord × List Nat)) (c : Coord) (o : Nat) :
    ∀ e ∈ addHit hits c o,
      (∃ e0 ∈ hits, e.1 = e0.1 ∧ (e.2 = e0.2 ∨ (o ∉ e0.2 ∧ e.2 = e0.2 ++ [o]))) ∨
        (e.1 = c ∧ e.2 = [o]) := by
  induction hits with
  | nil =>
    intro e he
    simp only [addHit, List.mem_singleton] at he
    subst he
    exact Or.inr ⟨rfl, rfl⟩
  | cons e0 rest ih =>
    obtain ⟨c', owners⟩ := e0
    intro e he
    simp only [addHit] at he
    by_cases hc : c' = c
    · rw [if_pos hc] at he
      rcases List.mem_cons.1 he with rfl | he2
      · refine Or.inl ⟨(c', owners), List.mem_cons_self _ _, rfl, ?_⟩
        by_cases ho : o ∈ owners
        · rw [if_pos ho]
          exact Or.inl rfl
        · rw [if_neg ho]
          exact Or.inr ⟨ho, rfl⟩
      · exact Or.inl ⟨e, List.mem_cons_of_mem _ he2, rfl, Or.inl rfl⟩
    · rw [if_neg hc] at he
      rcases List.mem_cons.1 he with rfl | he2
      · exact Or.inl ⟨(c', owners), List.mem_cons_self _ _, rfl, Or.inl rfl⟩
      · rcases ih e he2 with ⟨e1, he1, hp⟩ | hp
        · exact Or.inl ⟨e1, List.mem_cons_of_mem _ he1, hp⟩
        · exact Or.inr hp

theorem addHit_inv (grid : Grid) (hits : List (Coord × List Nat)) (c : Coord) (o : Nat)
    (h : hitsInv grid hits) (hib : in_bounds c.1 c.2 = true)
    (hbox : cellAt grid c.1 c.2 = Cell.box) : hitsInv grid (addHit hits c o) := by
  obtain ⟨hnd, hcond, hown⟩ := h
  refine ⟨?_, ?_, ?_⟩
  · rcases addHit_keys hits c o with hk | hk
    · rw [hk]
      exact hnd
    · by_cases hcmem : c ∈ hits.map Prod.fst
      · rw [addHit_keys_of_mem hits c o hcmem]
        exact hnd
      · rw [hk]
        refine List.Nodup.append hnd (List.nodup_singleton _) ?_
        intro a ha hb
        rw [List.mem_singleton] at hb
        subst hb
        exact hcmem ha
  · intro e he
    rcases addHit_mem hits c o e he with ⟨e0, he0, hp1, -⟩ | ⟨hp1, -⟩
    · rw [show e.1 = e0.1 from hp1]
      exact hcond e0 he0
    · rw [show e.1 = c from hp1]
      exact ⟨hib, hbox⟩
  · intro e he
    rcases addHit_mem hits c o e he with ⟨e0, he0, -, hp2⟩ | ⟨-, hp2⟩
    · rcases hp2 with hp2 | ⟨ho, hp2⟩
      · rw [hp2]
        exact hown e0 he0
      · rw [hp2]
        refine List.Nodup.append (hown e0 he0) (List.nodup_singleton _) ?_
        intro a ha hb
        rw [List.mem_singleton] at hb
        subst hb
        exact ho ha
    · rw [hp2]
      exact List.nodup_singleton _

theorem centersQ_mono (q ext : List Bomb) : centersQ q ⊆ centersQ (q ++ ext) := by
  unfold centersQ
  rw [List.map_append, List.toFinset_append]
  exact Finset.subset_union_left

/-! ## Ray-cast lemmas -/

theorem castRay_scorched (grid : Grid) (owner : Nat) (dx dy : Int) :
    ∀ (steps : Nat) (px py : Int) (s : PropState),
      (castRay grid owner dx dy steps px py s).scorched =
        s.scorched ∪ (raySpan grid s.bombs steps px py dx dy).toFinset := by
  intro steps
  induction steps with
  | zero =>
    intro px py s
    simp [castRay, raySpan]
  | succ n ih =>
    intro px py s
    simp only [castRay, raySpan]
    by_cases hib : in_bounds (px + dx) (py + dy) = true
    · have hnn : ¬ ¬ in_bounds (px + dx) (py + dy) = true := fun hc => hc hib
      rw [if_neg hnn, if_neg hnn]
      by_cases hbox : cellAt grid (px + dx) (py + dy) = Cell.box
      · rw [if_pos hbox, if_pos hbox]
        show insert (px + dx, py + dy) s.scorched =
          s.scorched ∪ ([((px + dx : Int), (py + dy : Int))] : List Coord).toFinset
        have h1 : (([((px + dx : Int), (py + dy : Int))] : List Coord)).toFinset =
            {((px + dx : Int), (py + dy : Int))} := by simp
        rw [h1, Finset.union_comm, ← Finset.insert_eq]
      · rw [if_neg hbox, if_neg hbox]
        by_cases hfound :
            (scanCell (px + dx) (py + dy) s.bombs s.processed s.queue s.agents).found = true
        · have hany : s.bombs.any (fun b => b.x == px + dx && b.y == py + dy) = true := by
            rw [← scanCell_found (px + dx) (py + dy) s.bombs s.processed s.queue s.agents]
            exact hfound
          rw [if_pos hfound, if_pos hany]
          show insert (px + dx, py + dy) s.scorched =
            s.scorched ∪ ([((px + dx : Int), (py + dy : Int))] : List Coord).toFinset
          have h1 : (([((px + dx : Int), (py + dy : Int))] : List Coord)).toFinset =
              {((px + dx : Int), (py + dy : Int))} := by simp
          rw [h1, Finset.union_comm, ← Finset.insert_eq]
        · have hany : s.bombs.any (fun b => b.x == px + dx && b.y == py + dy) = false := by
            rw [← scanCell_found (px + dx) (py + dy) s.bombs s.processed s.queue s.agents]
            simpa using hfound
          have hnone : ∀ b ∈ s.bombs, ¬ (b.x = px + dx ∧ b.y = py + dy) := by
            rw [List.any_eq_false] at hany
            intro b hb hc
            have := hany b hb
            simp [hc.1, hc.2] at this
          have hanyneg : ¬ (s.bombs.any (fun b => b.x == px + dx && b.y == py + dy) = true) := by
            rw [hany]
            exact Bool.false_ne_true
          rw [if_neg hfound, if_neg hanyneg,
            scanCell_nomatch (px + dx) (py + dy) s.bombs s.processed s.queue s.agents hnone]
          show (castRay grid owner dx dy n (px + dx) (py + dy)
              { s with scorched := insert (px + dx, py + dy) s.scorched }).scorched =
            s.scorched ∪ ((px + dx, py + dy) ::
              raySpan grid s.bombs n (px + dx) (py + dy) dx dy).toFinset
          rw [ih (px + dx) (py + dy) { s with scorched := insert (px + dx, py + dy) s.scorched }]
          show insert (px + dx, py + dy) s.scorched ∪
              (raySpan grid s.bombs n (px + dx) (py + dy) dx dy).toFinset =
            s.scorched ∪ ((px + dx, py + dy) ::
              raySpan grid s.bombs n (px + dx) (py + dy) dx dy).toFinset
          rw [List.toFinset_cons, Finset.insert_union, Finset.union_insert]
    · have hoob : ¬ in_bounds (px + dx) (py + dy) = true := hib
      rw [if_pos hoob, if_pos hoob]
      simp

/-- One-step case analysis of `castRay`: out of bounds, box hit, bomb found
(ray stops), or a plain scorch step on which the registry scan is the
identity. -/
theorem castRay_cases (grid : Grid) (owner : Nat) (dx dy : Int) (steps : Nat) (px py : Int)
    (s : PropState) :
    castRay grid owner dx dy (steps + 1) px py s = s ∨
    (in_bounds (px + dx) (py + dy) = true ∧ cellAt grid (px + dx) (py + dy) = Cell.box ∧
      castRay grid owner dx dy (steps + 1) px py s =
        { s with scorched := insert (px + dx, py + dy) s.scorched,
                 boxHits := addHit s.boxHits (px + dx, py + dy) owner }) ∨
    (in_bounds (px + dx) (py + dy) = true ∧
      (scanCell (px + dx) (py + dy) s.bombs s.processed s.queue s.agents).found = true ∧
      castRay grid owner dx dy (steps + 1) px py s =
        { s with scorched := insert (px + dx, py + dy) s.scorched,
                 bombs := (scanCell (px + dx) (py + dy) s.bombs s.processed s.queue s.agents).bombs,
                 processed :=
                   (scanCell (px + dx) (py + dy) s.bombs s.processed s.queue s.agents).processed,
                 queue := (scanCell (px + dx) (py + dy) s.bombs s.processed s.queue s.agents).queue,
                 agents :=
                   (scanCell (px + dx) (py + dy) s.bombs s.processed s.queue s.agents).agents }) ∨
    (castRay grid owner dx dy (steps + 1) px py s =
      castRay grid owner dx dy steps (px + dx) (py + dy)
        { s with scorched := insert (px + dx, py + dy) s.scorched }) := by
  simp only [castRay]
  by_cases hib : in_bounds (px + dx) (py + dy) = true
  · have hnn : ¬ ¬ in_bounds (px + dx) (py + dy) = true := fun hc => hc hib
    rw [if_neg hnn]
    by_cases hbox : cellAt grid (px + dx) (py + dy) = Cell.box
    · rw [if_pos hbox]
      exact Or.inr (Or.inl ⟨hib, hbox, rfl⟩)
    · rw [if_neg hbox]
      by_cases hfound :
          (scanCell (px + dx) (py + dy) s.bombs s.processed s.queue s.agents).found = true
      · rw [if_pos hfound]
        exact Or.inr (Or.inr (Or.inl ⟨hib, hfound, rfl⟩))
      · rw [if_neg hfound]
        have hany : s.bombs.any (fun b => b.x == px + dx && b.y == py + dy) = false := by
          rw [← scanCell_found (px + dx) (py + dy) s.bombs s.processed s.queue s.agents]
          simpa using hfound
        have hnone : ∀ b ∈ s.bombs, ¬ (b.x = px + dx ∧ b.y = py + dy) := by
          rw [List.any_eq_false] at hany
          intro b hb hc
          have := hany b hb
          simp [hc.1, hc.2] at this
        rw [scanCell_nomatch (px + dx) (py + dy) s.bombs s.processed s.queue s.agents hnone]
        exact Or.inr (Or.inr (Or.inr rfl))
  · have hoob : ¬ in_bounds (px + dx) (py + dy) = true := hib
    rw [if_pos hoob]
    exact Or.inl rfl

theorem castRay_queue_mono (grid : Grid) (owner : Nat) (dx dy : Int) :
    ∀ (steps : Nat) (px py : Int) (s : PropState),
      ∃ ext, (castRay grid owner dx dy steps px py s).queue = s.queue ++ ext := by
  intro steps
  induction steps with
  | zero =>
    intro px py s
    exact ⟨[], by simp [castRay]⟩
  | succ n ih =>
    intro px py s
    rcases castRay_cases grid owner dx dy n px py s with h | ⟨-, -, h⟩ | ⟨-, -, h⟩ | h
    · exact ⟨[], by rw [h]; simp⟩
    · exact ⟨[], by rw [h]; simp⟩
    · rw [h]
      exact scanCell_queue_mono (px + dx) (py + dy) s.bombs s.processed s.queue s.agents
    · rw [h]
      exact ih (px + dx) (py + dy) { s with scorched := insert (px + dx, py + dy) s.scorched }

theorem castRay_proc_mono (grid : Grid) (owner : Nat) (dx dy : Int) :
    ∀ (steps : Nat) (px py : Int) (s : PropState),
      s.processed ⊆ (castRay grid owner dx dy steps px py s).processed := by
  intro steps
  induction steps with
  | zero =>
    intro px py s
    exact Finset.Subset.refl _
  | succ n ih =>
    intro px py s
    rcases castRay_cases grid owner dx dy n px py s with h | ⟨-, -, h⟩ | ⟨-, -, h⟩ | h
    · rw [h]
    · rw [h]
    · rw [h]
      exact scanCell_proc_mono (px + dx) (py + dy) s.bombs s.processed s.queue s.agents
    · rw [h]
      exact ih (px + dx) (py + dy) { s with scorched := insert (px + dx, py + dy) s.scorched }

theorem castRay_measure (grid : Grid) (owner : Nat) (dx dy : Int) :
    ∀ (steps : Nat) (px py : Int) (s : PropState),
      measureP (castRay grid owner dx dy steps px py s) ≤ measureP s := by
  intro steps
  induction steps with
  | zero =>
    intro px py s
    exact Nat.le_refl _
  | succ n ih =>
    intro px py s
    rcases castRay_cases grid owner dx dy n px py s with h | ⟨-, -, h⟩ | ⟨-, -, h⟩ | h
    · rw [h]
    · rw [h]
      exact Nat.le_refl _
    · rw [h]
      exact scanCell_measure (px + dx) (py + dy) s.bombs s.processed s.queue s.agents
    · rw [h]
      exact ih (px + dx) (py + dy) { s with scorched := insert (px + dx, py + dy) s.scorched }

theorem castRay_agents_len (grid : Grid) (owner : Nat) (dx dy : Int) :
    ∀ (steps : Nat) (px py : Int) (s : PropState),
      (castRay grid owner dx dy steps px py s).agents.length = s.agents.length := by
  intro steps
  induction steps with
  | zero =>
    intro px py s
    rfl
  | succ n ih =>
    intro px py s
    rcases castRay_cases grid owner dx dy n px py s with h | ⟨-, -, h⟩ | ⟨-, -, h⟩ | h
    · rw [h]
    · rw [h]
    · rw [h]
      exact scanCell_agents_len (px + dx) (py + dy) s.bombs s.processed s.queue s.agents
    · rw [h]
      exact ih (px + dx) (py + dy) { s with scorched := insert (px + dx, py + dy) s.scorched }

theorem castRay_agents_boxes (grid : Grid) (owner : Nat) (dx dy : Int) :
    ∀ (steps : Nat) (px py : Int) (s : PropState) (j : Nat),
      ((castRay grid owner dx dy steps px py s).agents.getD j default).boxes_blown_up =
        (s.agents.getD j default).boxes_blown_up := by
  intro steps
  induction steps with
  | zero =>
    intro px py s j
    rfl
  | succ n ih =>
    intro px py s j
    rcases castRay_cases grid owner dx dy n px py s with h | ⟨-, -, h⟩ | ⟨-, -, h⟩ | h
    · rw [h]
    · rw [h]
    · rw [h]
      exact scanCell_agents_boxes (px + dx) (py + dy) s.bombs s.processed s.queue s.agents j
    · rw [h]
      exact ih (px + dx) (py + dy) { s with scorched := insert (px + dx, py + dy) s.scorched } j

theorem castRay_hitsInv (grid : Grid) (owner : Nat) (dx dy : Int) :
    ∀ (steps : Nat) (px py : Int) (s : PropState),
      hitsInv grid s.boxHits → hitsInv grid (castRay grid owner dx dy steps px py s).boxHits := by
  intro steps
  induction steps with
  | zero =>
    intro px py s h
    exact h
  | succ n ih =>
    intro px py s hinv
    rcases castRay_cases grid owner dx dy n px py s with h | ⟨hib, hbox, h⟩ | ⟨-, -, h⟩ | h
    · rw [h]
      exact hinv
    · rw [h]
      exact addHit_inv grid s.boxHits (px + dx, py + dy) owner hinv hib hbox
    · rw [h]
      exact hinv
    · rw [h]
      exact ih (px + dx) (py + dy) { s with scorched := insert (px + dx, py + dy) s.scorched } hinv

/-- Every coordinate marked queued is scorched or is the center of a bomb
still waiting in the queue: preserved along one ray. -/
theorem castRay_qc (grid : Grid) (owner : Nat) (dx dy : Int) :
    ∀ (steps : Nat) (px py : Int) (s : PropState),
      s.processed ⊆ s.scorched ∪ centersQ s.queue →
      (castRay grid owner dx dy steps px py s).processed ⊆
        (castRay grid owner dx dy steps px py s).scorched ∪
          centersQ (castRay grid owner dx dy steps px py s).queue := by
  intro steps
  induction steps with
  | zero =>
    intro px py s h
    exact h
  | succ n ih =>
    intro px py s hinv
    rcases castRay_cases grid owner dx dy n px py s with h | ⟨-, -, h⟩ | ⟨-, -, h⟩ | h
    · rw [h]
      exact hinv
    · rw [h]
      intro p hp
      rcases Finset.mem_union.1 (hinv hp) with hp2 | hp2
      · exact Finset.mem_union_left _ (Finset.mem_insert_of_mem hp2)
      · exact Finset.mem_union_right _ hp2
    · rw [h]
      intro p hp
      have hp2 := scanCell_proc_sub (px + dx) (py + dy) s.bombs s.processed s.queue s.agents hp
      rcases Finset.mem_union.1 hp2 with hp3 | hp3
      · rcases Finset.mem_union.1 (hinv hp3) with hp4 | hp4
        · exact Finset.mem_union_left _ (Finset.mem_insert_of_mem hp4)
        · obtain ⟨ext, hext⟩ :=
            scanCell_queue_mono (px + dx) (py + dy) s.bombs s.processed s.queue s.agents
          apply Finset.mem_union_right
          rw [hext]
          exact centersQ_mono s.queue ext hp4
      · exact Finset.mem_union_right _ hp3
    · rw [h]
      apply ih (px + dx) (py + dy) { s with scorched := insert (px + dx, py + dy) s.scorched }
      intro p hp
      rcases Finset.mem_union.1 (hinv hp) with hp2 | hp2
      · exact Finset.mem_union_left _ (Finset.mem_insert_of_mem hp2)
      · exact Finset.mem_union_right _ hp2

/-- On an empty registry a ray only scorches: registry, queued set, queue and
agents are untouched. -/
theorem castRay_no_bombs (grid : Grid) (owner : Nat) (dx dy : Int) :
    ∀ (steps : Nat) (px py : Int) (s : PropState), s.bombs = [] →
      (castRay grid owner dx dy steps px py s).bombs = [] ∧
      (castRay grid owner dx dy steps px py s).processed = s.processed ∧
      (castRay grid owner dx dy steps px py s).queue = s.queue ∧
      (castRay grid owner dx dy steps px py s).agents = s.agents := by
  intro steps
  induction steps with
  | zero =>
    intro px py s hb
    exact ⟨hb, rfl, rfl, rfl⟩
  | succ n ih =>
    intro px py s hb
    rcases castRay_cases grid owner dx dy n px py s with h | ⟨-, -, h⟩ | ⟨-, hfound, h⟩ | h
    · rw [h]
      exact ⟨hb, rfl, rfl, rfl⟩
    · rw [h]
      exact ⟨hb, rfl, rfl, rfl⟩
    · exfalso
      rw [hb] at hfound
      simp [scanCell] at hfound
    · rw [h]
      exact ih (px + dx) (py + dy) { s with scorched := insert (px + dx, py + dy) s.scorched } hb

/-! ## Queue-loop lemmas -/

/-- `propStep` spelled out: scorch the center, then the four rays in
`DIRECTIONS` order (up, right, down, left). -/
theorem propStep_eq (grid : Grid) (b : Bomb) (s : PropState) :
    propStep grid b s =
      castRay grid b.owner_id (-1) 0 (b.range - 1) b.x b.y
        (castRay grid b.owner_id 0 1 (b.range - 1) b.x b.y
          (castRay grid b.owner_id 1 0 (b.range - 1) b.x b.y
            (castRay grid b.owner_id 0 (-1) (b.range - 1) b.x b.y
              { s with scorched := insert (b.x, b.y) s.scorched }))) := rfl

theorem propStep_measure (grid : Grid) (b : Bomb) (s : PropState) :
    measureP (propStep grid b s) ≤ measureP s := by
  rw [propStep_eq]
  calc measureP (castRay grid b.owner_id (-1) 0 (b.range - 1) b.x b.y
        (castRay grid b.owner_id 0 1 (b.range - 1) b.x b.y
          (castRay grid b.owner_id 1 0 (b.range - 1) b.x b.y
            (castRay grid b.owner_id 0 (-1) (b.range - 1) b.x b.y
              { s with scorched := insert (b.x, b.y) s.scorched }))))
      ≤ measureP (castRay grid b.owner_id 0 1 (b.range - 1) b.x b.y
          (castRay grid b.owner_id 1 0 (b.range - 1) b.x b.y
            (castRay grid b.owner_id 0 (-1) (b.range - 1) b.x b.y
              { s with scorched := insert (b.x, b.y) s.scorched }))) :=
        castRay_measure grid b.owner_id (-1) 0 (b.range - 1) b.x b.y _
    _ ≤ measureP (castRay grid b.owner_id 1 0 (b.range - 1) b.x b.y
            (castRay grid b.owner_id 0 (-1) (b.range - 1) b.x b.y
              { s with scorched := insert (b.x, b.y) s.scorched })) :=
        castRay_measure grid b.owner_id 0 1 (b.range - 1) b.x b.y _
    _ ≤ measureP (castRay grid b.owner_id 0 (-1) (b.range - 1) b.x b.y
              { s with scorched := insert (b.x, b.y) s.scorched }) :=
        castRay_measure grid b.owner_id 1 0 (b.range - 1) b.x b.y _
    _ ≤ measureP ({ s with scorched := insert (b.x, b.y) s.scorched } : PropState) :=
        castRay_measure grid b.owner_id 0 (-1) (b.range - 1) b.x b.y _
    _ = measureP s := rfl

/-- Popping a queue entry strictly decreases the loop measure. -/
theorem measureP_pop (grid : Grid) (b : Bomb) (rest : List Bomb) (s : PropState)
    (hq : s.queue = b :: rest) :
    measureP (propStep grid b { s with queue := rest }) < measureP s := by
  have h1 := propStep_measure grid b { s with queue := rest }
  have h2 : measureP ({ s with queue := rest } : PropState) + 1 = measureP s := by
    simp only [measureP, hq, List.length_cons]
    omega
  omega

theorem propLoopF_isSome (grid : Grid) :
    ∀ (fuel : Nat) (s : PropState), measureP s < fuel →
      (propLoopF grid fuel s).isSome = true := by
  intro fuel
  induction fuel with
  | zero =>
    intro s h
    omega
  | succ n ih =>
    intro s h
    simp only [propLoopF]
    rcases hq : s.queue with _ | ⟨b, rest⟩
    · rfl
    · show (propLoopF grid n (propStep grid b { s with queue := rest })).isSome = true
      apply ih
      have := measureP_pop grid b rest s hq
      omega

theorem propLoopF_mono (grid : Grid) :
    ∀ (fuel fuel' : Nat) (s : PropState) (t : PropState), fuel ≤ fuel' →
      propLoopF grid fuel s = some t → propLoopF grid fuel' s = some t := by
  intro fuel
  induction fuel with
  | zero =>
    intro fuel' s t _ h
    simp [propLoopF] at h
  | succ n ih =>
    intro fuel' s t hle h
    obtain ⟨m, rfl⟩ : ∃ m, fuel' = m + 1 := ⟨fuel' - 1, by omega⟩
    simp only [propLoopF] at h ⊢
    rcases hq : s.queue with _ | ⟨b, rest⟩
    · rw [hq] at h
      exact h
    · rw [hq] at h
      exact ih m _ t (by omega) h

/-- The fuel supplied by `propLoop` suffices, and `propLoop` is its value. -/
theorem propLoop_some (grid : Grid) (s : PropState) :
    propLoopF grid (measureP s + 1) s = some (propLoop grid s) := by
  have h := propLoopF_isSome grid (measureP s + 1) s (by omega)
  unfold propLoop
  rcases hf : propLoopF grid (measureP s + 1) s with _ | t
  · rw [hf] at h
    simp at h
  · rfl

theorem propLoopF_queue (grid : Grid) :
    ∀ (fuel : Nat) (s t : PropState), propLoopF grid fuel s = some t → t.queue = [] := by
  intro fuel
  induction fuel with
  | zero =>
    intro s t h
    simp [propLoopF] at h
  | succ n ih =>
    intro s t h
    simp only [propLoopF] at h
    rcases hq : s.queue with _ | ⟨b, rest⟩
    · rw [hq] at h
      cases h
      rw [hq]
    · rw [hq] at h
      exact ih _ t h

/-- The queue is drained when the loop exits. -/
theorem propLoop_queue (grid : Grid) (s : PropState) : (propLoop grid s).queue = [] :=
  propLoopF_queue grid (measureP s + 1) s (propLoop grid s) (propLoop_some grid s)

theorem propLoopF_inv (grid : Grid) (P : PropState → Prop)
    (hstep : ∀ (b : Bomb) (rest : List Bomb) (s : PropState), s.queue = b :: rest → P s →
      P (propStep grid b { s with queue := rest })) :
    ∀ (fuel : Nat) (s t : PropState), propLoopF grid fuel s = some t → P s → P t := by
  intro fuel
  induction fuel with
  | zero =>
    intro s t h
    simp [propLoopF] at h
  | succ n ih =>
    intro s t h hp
    simp only [propLoopF] at h
    rcases hq : s.queue with _ | ⟨b, rest⟩
    · rw [hq] at h
      cases h
      exact hp
    · rw [hq] at h
      exact ih _ t h (hstep b rest s hq hp)

/-- Generic invariant-preservation for the queue loop. -/
theorem propLoop_inv (grid : Grid) (P : PropState → Prop)
    (hstep : ∀ (b : Bomb) (rest : List Bomb) (s : PropState), s.queue = b :: rest → P s →
      P (propStep grid b { s with queue := rest }))
    (s : PropState) (hp : P s) : P (propLoop grid s) :=
  propLoopF_inv grid P hstep (measureP s + 1) s (propLoop grid s) (propLoop_some grid s) hp

theorem centersQ_cons (b : Bomb) (q : List Bomb) :
    centersQ (b :: q) = insert (b.x, b.y) (centersQ q) := by
  simp [centersQ]

theorem propStep_qc (grid : Grid) (b : Bomb) (rest : List Bomb) (s : PropState)
    (hq : s.queue = b :: rest)
    (hinv : s.processed ⊆ s.scorched ∪ centersQ s.queue) :
    (propStep grid b { s with queue := rest }).processed ⊆
      (propStep grid b { s with queue := rest }).scorched ∪
        centersQ (propStep grid b { s with queue := rest }).queue := by
  rw [propStep_eq]
  apply castRay_qc
  apply castRay_qc
  apply castRay_qc
  apply castRay_qc
  intro p hp
  show p ∈ insert (b.x, b.y) s.scorched ∪ centersQ rest
  have hp2 := hinv hp
  rw [hq, centersQ_cons] at hp2
  rcases Finset.mem_union.1 hp2 with hp3 | hp3
  · exact Finset.mem_union_left _ (Finset.mem_insert_of_mem hp3)
  · rcases Finset.mem_insert.1 hp3 with rfl | hp4
    · exact Finset.mem_union_left _ (Finset.mem_insert_self _ _)
    · exact Finset.mem_union_right _ hp4

theorem propStep_hitsInv (grid : Grid) (b : Bomb) (s : PropState)
    (hinv : hitsInv grid s.boxHits) : hitsInv grid (propStep grid b s).boxHits := by
  rw [propStep_eq]
  apply castRay_hitsInv
  apply castRay_hitsInv
  apply castRay_hitsInv
  apply castRay_hitsInv
  exact hinv

theorem propStep_agents_len (grid : Grid) (b : Bomb) (s : PropState) :
    (propStep grid b s).agents.length = s.agents.length := by
  rw [propStep_eq, castRay_agents_len, castRay_agents_len, castRay_agents_len,
    castRay_agents_len]

theorem propStep_agents_boxes (grid : Grid) (b : Bomb) (s : PropState) (j : Nat) :
    ((propStep grid b s).agents.getD j default).boxes_blown_up =
      (s.agents.getD j default).boxes_blown_up := by
  rw [propStep_eq, castRay_agents_boxes, castRay_agents_boxes, castRay_agents_boxes,
    castRay_agents_boxes]

/-- The two facts the box-scoring run needs about the drained loop state. -/
theorem propagateState_inv (g : Game) (seeds : List Bomb) :
    hitsInv g.grid (propagateState g seeds).boxHits ∧
    (propagateState g seeds).agents.length = g.agents.length ∧
    (∀ j : Nat, ((propagateState g seeds).agents.getD j default).boxes_blown_up =
      (g.agents.getD j default).boxes_blown_up) := by
  unfold propagateState
  apply propLoop_inv g.grid
    (fun s => hitsInv g.grid s.boxHits ∧ s.agents.length = g.agents.length ∧
      ∀ j : Nat, (s.agents.getD j default).boxes_blown_up =
        (g.agents.getD j default).boxes_blown_up)
  · intro b rest s hq hp
    refine ⟨propStep_hitsInv g.grid b _ hp.1, ?_, ?_⟩
    · rw [propStep_agents_len]
      exact hp.2.1
    · intro j
      rw [propStep_agents_boxes]
      exact hp.2.2 j
  · refine ⟨⟨List.nodup_nil, ?_, ?_⟩, rfl, fun j => rfl⟩
    · intro e he
      exact absurd he (List.not_mem_nil _)
    · intro e he
      exact absurd he (List.not_mem_nil _)

/-- Every coordinate the pass queued (seed centers and chain-triggered bomb
centers) ends up scorched. -/
theorem propagateState_proc_scorched (g : Game) (seeds : List Bomb) :
    (propagateState g seeds).processed ⊆ (propagateState g seeds).scorched := by
  have hinv : (propagateState g seeds).processed ⊆
      (propagateState g seeds).scorched ∪ centersQ (propagateState g seeds).queue := by
    unfold propagateState
    apply propLoop_inv g.grid (fun s => s.processed ⊆ s.scorched ∪ centersQ s.queue)
    · intro b rest s hq hp
      exact propStep_qc g.grid b rest s hq hp
    · intro p hp
      apply Finset.mem_union_right
      exact hp
  have hqn : (propagateState g seeds).queue = [] := propLoop_queue g.grid _
  intro p hp
  have hp2 := hinv hp
  rw [hqn] at hp2
  rcases Finset.mem_union.1 hp2 with hp3 | hp3
  · exact hp3
  · simp [centersQ] at hp3

set_option maxRecDepth 400000 in
/-- **C1 (counterexample)**: the claim says a ray stops on the cell of any
other detonating bomb of the pass. But `tick_bombs` removes the seed bombs
from the registry before propagation, so owner 0's +x ray from (0, 0) passes
straight through (1, 0) — the cell of the other detonating seed — and scorches
the box at (2, 0) beyond it, crediting owner 0. -/
theorem claim_C1_counterexample :
    (gC1pre.tick_bombs).2 = [seedA, seedB] ∧
    (gC1pre.tick_bombs).1.bombs = [] ∧
    seedA.owner_id = 0 ∧ seedA.x = 0 ∧ seedA.y = 0 ∧ seedB.x = 1 ∧ seedB.y = 0 ∧
    cellAt gC1pre.grid 2 0 = Cell.box ∧
    raySpan (gC1pre.tick_bombs).1.grid (gC1pre.tick_bombs).1.bombs 2 0 0 1 0 =
      [(1, 0), (2, 0)] ∧
    ((2 : Int), (0 : Int)) ∈
      ((gC1pre.tick_bombs).1.propagate_explosions (gC1pre.tick_bombs).2).explosions ∧
    (agentAt ((gC1pre.tick_bombs).1.propagate_explosions (gC1pre.tick_bombs).2) 0).boxes_blown_up
      = 1 := by
  decide

/-- **C1 (amended)**: a ray scorches exactly its span over the *current bomb
registry*, and the span stops on the first in-bounds cell holding a registry
bomb, independent of that bomb's timer. The pass's seed bombs were already
removed from the registry by `tick_bombs`, so they do not block rays; a
chain-triggered bomb stays in the registry (timer 0) and does block. -/
theorem claim_C1_amended :
    (∀ (grid : Grid) (owner : Nat) (dx dy : Int) (steps : Nat) (px py : Int) (s : PropState),
      (castRay grid owner dx dy steps px py s).scorched =
        s.scorched ∪ (raySpan grid s.bombs steps px py dx dy).toFinset) ∧
    (∀ (grid : Grid) (bombs : List Bomb) (steps : Nat) (px py dx dy : Int),
      in_bounds (px + dx) (py + dy) = true →
      bombs.any (fun b => b.x == px + dx && b.y == py + dy) = true →
      raySpan grid bombs (steps + 1) px py dx dy = [(px + dx, py + dy)]) := by
  constructor
  · intro grid owner dx dy steps px py s
    exact castRay_scorched grid owner dx dy steps px py s
  · intro grid bombs steps px py dx dy hib hany
    simp only [raySpan]
    rw [if_neg (show ¬ ¬ in_bounds (px + dx) (py + dy) = true from fun hc => hc hib)]
    by_cases hbox : cellAt grid (px + dx) (py + dy) = Cell.box
    · rw [if_pos hbox]
    · rw [if_neg hbox, if_pos hany]

/-- Witness for the amended C1: the live registry bomb at (4, 7) stops the
downward ray cast from (4, 6). -/
theorem claim_C1_amended_witness :
    raySpan gChain.grid gChain.bombs 2 4 6 0 1 = [(4, 7)] :=
  claim_C1_amended.2 gChain.grid gChain.bombs 1 4 6 0 1 (by decide) (by decide)

/-- **C3**: a live, not-yet-queued bomb on a ray cell is triggered: its timer
is forced to 0 in the registry, its owner's capacity credited immediately, it
is enqueued and its center marked queued; the pass drains its whole queue and
scorches every queued center (the triggered bomb's own blast step having
run), and the surviving registry keeps exactly the bombs with positive
timer — every timer-0 bomb is dropped. -/
theorem claim_C3 (g : Game) (seeds : List Bomb) :
    (∀ (nx ny : Int) (bombs : List Bomb) (proc : Finset Coord) (q : List Bomb)
        (ags : List Agent) (b : Bomb),
      (bombs.map (fun c => (c.x, c.y))).Nodup → b ∈ bombs → b.x = nx → b.y = ny →
      0 < b.timer → (b.x, b.y) ∉ proc →
        (scanCell nx ny bombs proc q ags).bombs =
          bombs.map (fun c => if c.x = nx ∧ c.y = ny then { c with timer := 0 } else c) ∧
        (scanCell nx ny bombs proc q ags).agents = bumpBombsLeft ags b.owner_id ∧
        (scanCell nx ny bombs proc q ags).queue =
          (if { b with timer := 0 } ∈ q then q else q ++ [{ b with timer := 0 }]) ∧
        (scanCell nx ny bombs proc q ags).processed = insert (b.x, b.y) proc ∧
        (scanCell nx ny bombs proc q ags).found = true) ∧
    (propagateState g seeds).queue = [] ∧
    (propagateState g seeds).processed ⊆ (propagateState g seeds).scorched ∧
    (g.propagate_explosions seeds).bombs =
      (propagateState g seeds).bombs.filter (fun b => decide (0 < b.timer)) ∧
    (∀ b2 : Bomb, b2 ∈ (g.propagate_explosions seeds).bombs ↔
      b2 ∈ (propagateState g seeds).bombs ∧ 0 < b2.timer) := by
  refine ⟨?_, propLoop_queue g.grid _, propagateState_proc_scorched g seeds, rfl, ?_⟩
  · intro nx ny bombs proc q ags b hnd hmem hx hy ht hproc
    obtain ⟨h1, h2, h3, h4, h5⟩ := scanCell_trigger nx ny bombs proc q ags b hnd hmem hx hy
      ht hproc
    exact ⟨h1, h4, h3, h2, h5⟩
  · intro b2
    show b2 ∈ (propagateState g seeds).bombs.filter (fun b => decide (0 < b.timer)) ↔ _
    rw [List.mem_filter]
    simp

/-- Witness for C3 on the chain-reaction state: the seed at (4, 5) reaches
the live bomb at (4, 7); the scan enqueues it with timer 0 and credits owner
1, and the pass scorches its center. -/
theorem claim_C3_witness :
    (scanCell 4 7 [chainTarget] ∅ [] gChain.agents).queue = [{ chainTarget with timer := 0 }] ∧
    (scanCell 4 7 [chainTarget] ∅ [] gChain.agents).agents =
      bumpBombsLeft gChain.agents 1 ∧
    (propagateState gChain [chainSeed]).processed ⊆ (propagateState gChain [chainSeed]).scorched
    := by
  have h := (claim_C3 gChain [chainSeed]).1 4 7 [chainTarget] ∅ [] gChain.agents chainTarget
    (by decide) (by decide) (by decide) (by decide) (by decide) (by decide)
  refine ⟨?_, ?_, (claim_C3 gChain [chainSeed]).2.2.1⟩
  · rw [h.2.2.1]
    decide
  · rw [h.2.1]
    rfl

/-! ## Grid-write and box-scoring lemmas -/

theorem getD_mem {α : Type _} (l : List α) (n : Nat) (d : α) (h : n < l.length) :
    l.getD n d ∈ l := by
  induction l generalizing n with
  | nil => simp at h
  | cons a rest ih =>
    cases n with
    | zero => exact List.mem_cons_self _ _
    | succ m =>
      exact List.mem_cons_of_mem _ (ih m (by simp only [List.length_cons] at h; omega))

theorem mem_updateAt {α : Type _} : ∀ (l : List α) (i : Nat) (f : α → α),
    ∀ a ∈ updateAt l i f, a ∈ l ∨ ∃ b ∈ l, a = f b
  | [], _, _ => by simp [updateAt]
  | x :: rest, 0, f => by
    intro a ha
    rcases List.mem_cons.1 ha with rfl | h2
    · exact Or.inr ⟨x, List.mem_cons_self _ _, rfl⟩
    · exact Or.inl (List.mem_cons_of_mem _ h2)
  | x :: rest, n + 1, f => by
    intro a ha
    rcases List.mem_cons.1 ha with rfl | h2
    · exact Or.inl (List.mem_cons_self _ _)
    · rcases mem_updateAt rest n f a h2 with h | ⟨b, hb, he⟩
      · exact Or.inl (List.mem_cons_of_mem _ h)
      · exact Or.inr ⟨b, List.mem_cons_of_mem _ hb, he⟩

theorem gridWF_setCell (g : Grid) (x y : Int) (c : Cell) (h : gridWF g) :
    gridWF (setCell g x y c) := by
  obtain ⟨h1, h2⟩ := h
  refine ⟨?_, ?_⟩
  · rw [setCell, length_updateAt]
    exact h1
  · intro row hrow
    rcases mem_updateAt g y.toNat _ row hrow with hr | ⟨b, hb, he⟩
    · exact h2 row hr
    · rw [he, length_updateAt]
      exact h2 b hb

theorem cellAt_setCell_self (g : Grid) (x y : Int) (c : Cell)
    (hw : gridWF g) (hib : in_bounds x y = true) :
    cellAt (setCell g x y c) x y = c := by
  simp only [in_bounds, WIDTH, HEIGHT, decide_eq_true_eq, Bool.and_eq_true,
    Bool.decide_and] at hib
  have hx : x.toNat < 13 := by omega
  have hy : y.toNat < 11 := by omega
  have hylen : y.toNat < g.length := by
    rw [hw.1]
    exact hy
  unfold cellAt setCell
  rw [getD_updateAt_self g y.toNat _ [] hylen]
  have hrow : g.getD y.toNat [] ∈ g := getD_mem g y.toNat [] hylen
  have hxlen : x.toNat < (g.getD y.toNat []).length := by
    rw [hw.2 _ hrow]
    exact hx
  rw [getD_updateAt_self _ x.toNat _ Cell.floor hxlen]

theorem cellAt_setCell_ne (g : Grid) (x y x' y' : Int) (c : Cell)
    (hib : in_bounds x y = true) (hib' : in_bounds x' y' = true)
    (hne : ¬ (x = x' ∧ y = y')) :
    cellAt (setCell g x y c) x' y' = cellAt g x' y' := by
  simp only [in_bounds, WIDTH, HEIGHT, decide_eq_true_eq, Bool.and_eq_true,
    Bool.decide_and] at hib hib'
  by_cases hy : y.toNat = y'.toNat
  · have hyy : y = y' := by omega
    have hxx : ¬ x = x' := fun hc => hne ⟨hc, hyy⟩
    have hxn : x.toNat ≠ x'.toNat := by omega
    unfold cellAt setCell
    rw [hy]
    by_cases hylen : y'.toNat < g.length
    · rw [getD_updateAt_self g y'.toNat _ [] hylen,
        getD_updateAt_ne _ x.toNat x'.toNat _ Cell.floor hxn]
    · rw [updateAt_of_le g y'.toNat _ (by omega)]
  · unfold cellAt setCell
    rw [getD_updateAt_ne g y.toNat y'.toNat _ [] hy]

/-- The `for owner in owners` scoring fold: an agent is credited once iff it
appears in the (duplicate-free) owner list. -/
theorem foldBump_getD (owners : List Nat) (ags : List Agent) (j : Nat)
    (hnd : owners.Nodup) (hj : j < ags.length) :
    ((owners.foldl (fun as o => updateAt as o
        (fun a => { a with boxes_blown_up := a.boxes_blown_up + 1 })) ags).getD j
      default).boxes_blown_up =
      (ags.getD j default).boxes_blown_up + (if j ∈ owners then 1 else 0) := by
  induction owners generalizing ags with
  | nil => simp
  | cons o rest ih =>
    obtain ⟨ho1, ho2⟩ := List.nodup_cons.1 hnd
    rw [List.foldl_cons]
    rw [ih (updateAt ags o (fun a => { a with boxes_blown_up := a.boxes_blown_up + 1 })) ho2
      (by rw [length_updateAt]; exact hj)]
    by_cases ho : o = j
    · subst ho
      rw [getD_updateAt_self ags o _ default hj]
      have hjr : o ∉ rest := ho1
      simp [hjr]
    · rw [getD_updateAt_ne ags o j _ default ho]
      have : (j ∈ o :: rest) ↔ (j ∈ rest) := by
        rw [List.mem_cons]
        constructor
        · rintro (rfl | h)
          · exact absurd rfl ho
          · exact h
        · exact Or.inr
      by_cases hjr : j ∈ rest
      · simp [hjr, this]
      · simp [hjr, this]

theorem foldBump_len (owners : List Nat) (ags : List Agent) :
    (owners.foldl (fun as o => updateAt as o
        (fun a => { a with boxes_blown_up := a.boxes_blown_up + 1 })) ags).length =
      ags.length := by
  induction owners generalizing ags with
  | nil => rfl
  | cons o rest ih =>
    rw [List.foldl_cons, ih, length_updateAt]

/-- The `# destroy boxes and assign points to owners` loop, specified: every
recorded box cell ends as floor, untouched in-bounds cells keep their value,
and each agent gains one point per recorded hit entry that lists it. -/
theorem scoreBoxes_spec : ∀ (hits : List (Coord × List Nat)) (grid : Grid) (ags : List Agent),
    gridWF grid → hitsInv grid hits →
    (∀ e ∈ hits, cellAt (scoreBoxes grid ags hits).1 e.1.1 e.1.2 = Cell.floor) ∧
    (∀ p : Coord, in_bounds p.1 p.2 = true → p ∉ hits.map Prod.fst →
      cellAt (scoreBoxes grid ags hits).1 p.1 p.2 = cellAt grid p.1 p.2) ∧
    (∀ j : Nat, j < ags.length →
      ((scoreBoxes grid ags hits).2.getD j default).boxes_blown_up =
        (ags.getD j default).boxes_blown_up +
          hits.countP (fun e => decide (j ∈ e.2))) := by
  intro hits
  induction hits with
  | nil =>
    intro grid ags _ _
    refine ⟨fun e he => absurd he (List.not_mem_nil _), fun p _ _ => rfl, fun j _ => by
      simp [scoreBoxes]⟩
  | cons e0 rest ih =>
    obtain ⟨c, owners⟩ := e0
    intro grid ags hw hinv
    have hbox : cellAt grid c.1 c.2 = Cell.box :=
      (hinv.2.1 (c, owners) (List.mem_cons_self _ _)).2
    have hib : in_bounds c.1 c.2 = true :=
      (hinv.2.1 (c, owners) (List.mem_cons_self _ _)).1
    have hnd := List.nodup_cons.1 hinv.1
    simp only [scoreBoxes]
    rw [if_pos hbox]
    have hw' : gridWF (setCell grid c.1 c.2 Cell.floor) := gridWF_setCell grid c.1 c.2 _ hw
    have hinv' : hitsInv (setCell grid c.1 c.2 Cell.floor) rest := by
      obtain ⟨hk, hprop, hown⟩ := hinv
      refine ⟨(List.nodup_cons.1 hk).2, ?_, fun e he => hown e (List.mem_cons_of_mem _ he)⟩
      intro e he
      have h1 := hprop e (List.mem_cons_of_mem _ he)
      have hne : ¬ (c.1 = e.1.1 ∧ c.2 = e.1.2) := by
        intro hc
        apply (List.nodup_cons.1 hk).1
        have : c = e.1 := Prod.ext hc.1 hc.2
        exact List.mem_map.2 ⟨e, he, this.symm⟩
      refine ⟨h1.1, ?_⟩
      rw [cellAt_setCell_ne grid c.1 c.2 e.1.1 e.1.2 Cell.floor hib h1.1 hne]
      exact h1.2
    obtain ⟨ha, hc2, hb⟩ := ih (setCell grid c.1 c.2 Cell.floor)
      (owners.foldl (fun as o => updateAt as o
        (fun a => { a with boxes_blown_up := a.boxes_blown_up + 1 })) ags) hw' hinv'
    refine ⟨?_, ?_, ?_⟩
    · intro e he
      rcases List.mem_cons.1 he with he1 | he2
      · have he1' : e.1 = c := by rw [he1]
        rw [he1', hc2 c hib hnd.1]
        exact cellAt_setCell_self grid c.1 c.2 Cell.floor hw hib
      · exact ha e he2
    · intro p hpib hpk
      rw [List.map_cons] at hpk
      have hp1 : p ≠ c := fun hc => hpk (by rw [hc]; exact List.mem_cons_self _ _)
      have hp2 : p ∉ rest.map Prod.fst := fun hc => hpk (List.mem_cons_of_mem _ hc)
      rw [hc2 p hpib hp2]
      apply cellAt_setCell_ne grid c.1 c.2 p.1 p.2 Cell.floor hib hpib
      intro hcp
      exact hp1 (Prod.ext hcp.1.symm hcp.2.symm)
    · intro j hj
      rw [hb j (by rw [foldBump_len]; exact hj),
        foldBump_getD owners ags j (hinv.2.2 (c, owners) (List.mem_cons_self _ _)) hj,
        List.countP_cons]
      by_cases hjo : j ∈ owners
      · rw [if_pos hjo,
          if_pos (show (decide (j ∈ (c, owners).2) : Bool) = true from by simpa using hjo)]
        omega
      · rw [if_neg hjo,
          if_neg (show ¬ ((decide (j ∈ (c, owners).2) : Bool) = true) from by
            simpa using hjo)]
        omega

/-- **C2**: every box cell recorded as hit during the pass is destroyed
(becomes floor), its owner lists are duplicate-free, and each agent's
boxes-blown-up count grows by exactly the number of recorded hit entries
listing it — simultaneous hits credit every distinct owner once, not
first-hit-wins. -/
theorem claim_C2 (g : Game) (seeds : List Bomb) (hw : gridWF g.grid) :
    (∀ e ∈ (propagateState g seeds).boxHits,
      cellAt (g.propagate_explosions seeds).grid e.1.1 e.1.2 = Cell.floor ∧
      cellAt g.grid e.1.1 e.1.2 = Cell.box ∧ e.2.Nodup) ∧
    (∀ j : Nat, j < g.agents.length →
      (agentAt (g.propagate_explosions seeds) j).boxes_blown_up =
        (agentAt g j).boxes_blown_up +
          (propagateState g seeds).boxHits.countP (fun e => decide (j ∈ e.2))) := by
  obtain ⟨hhi, hlen, hboxes⟩ := propagateState_inv g seeds
  obtain ⟨ha, hc2, hb⟩ := scoreBoxes_spec (propagateState g seeds).boxHits g.grid
    (propagateState g seeds).agents hw hhi
  constructor
  · intro e he
    exact ⟨ha e he, (hhi.2.1 e he).2, hhi.2.2 e he⟩
  · intro j hj
    have hj2 : j < (propagateState g seeds).agents.length := by
      rw [hlen]
      exact hj
    show ((scoreBoxes g.grid (propagateState g seeds).agents
        (propagateState g seeds).boxHits).2.getD j default).boxes_blown_up = _
    rw [hb j hj2, hboxes j]
    rfl

/-- Witness for C2: on `gBox` both owners' seed rays terminate on the box at
(1, 0); both agents are credited per the recorded hit list. -/
theorem claim_C2_witness :
    ((agentAt (gBox.propagate_explosions [hitA, hitB]) 0).boxes_blown_up =
      (agentAt gBox 0).boxes_blown_up +
        (propagateState gBox [hitA, hitB]).boxHits.countP (fun e => decide (0 ∈ e.2))) ∧
    ((agentAt (gBox.propagate_explosions [hitA, hitB]) 1).boxes_blown_up =
      (agentAt gBox 1).boxes_blown_up +
        (propagateState gBox [hitA, hitB]).boxHits.countP (fun e => decide (1 ∈ e.2))) :=
  ⟨(claim_C2 gBox [hitA, hitB] (by decide)).2 0 (by decide),
   (claim_C2 gBox [hitA, hitB] (by decide)).2 1 (by decide)⟩

/-! ## Open-grid propagation (claim C5) -/

theorem getD_oob {α : Type _} (l : List α) (n : Nat) (d : α) (h : l.length ≤ n) :
    l.getD n d = d := by
  induction l generalizing n with
  | nil => rfl
  | cons a rest ih =>
    cases n with
    | zero => simp at h
    | succ m => exact ih m (by simp only [List.length_cons] at h; omega)

theorem cellAt_all_floor (grid : Grid) (hfloor : ∀ row ∈ grid, ∀ c ∈ row, c = Cell.floor)
    (x y : Int) : ¬ cellAt grid x y = Cell.box := by
  unfold cellAt
  by_cases hy : y.toNat < grid.length
  · have hrow := getD_mem grid y.toNat [] hy
    by_cases hx : x.toNat < (grid.getD y.toNat []).length
    · have hc := getD_mem (grid.getD y.toNat []) x.toNat Cell.floor hx
      rw [hfloor _ hrow _ hc]
      decide
    · rw [getD_oob _ _ _ (by omega)]
      decide
  · rw [getD_oob grid y.toNat [] (by omega),
      getD_oob ([] : List Cell) x.toNat Cell.floor (Nat.zero_le _)]
    decide

/-- The span of a ray over an all-floor grid with an empty registry: exactly
the line cells within range, all in bounds. -/
theorem raySpan_clear_mem (grid : Grid) (hfloor : ∀ row ∈ grid, ∀ c ∈ row, c = Cell.floor) :
    ∀ (steps : Nat) (px py dx dy : Int),
      (∀ i : Int, 1 ≤ i → i ≤ (steps : Int) →
        in_bounds (px + dx * i) (py + dy * i) = true) →
      ∀ c : Coord, c ∈ raySpan grid [] steps px py dx dy ↔
        ∃ i : Int, 1 ≤ i ∧ i ≤ (steps : Int) ∧ c = (px + dx * i, py + dy * i) := by
  intro steps
  induction steps with
  | zero =>
    intro px py dx dy _ c
    constructor
    · intro h
      exact absurd h (List.not_mem_nil _)
    · rintro ⟨i, h1, h2, -⟩
      exfalso
      simp only [Nat.cast_zero] at h2
      omega
  | succ n ih =>
    intro px py dx dy hib c
    have h0 : in_bounds (px + dx) (py + dy) = true := by
      have h := hib 1 (by omega) (by push_cast; omega)
      rw [show px + dx * 1 = px + dx from by ring, show py + dy * 1 = py + dy from by ring] at h
      exact h
    have hnb : ¬ cellAt grid (px + dx) (py + dy) = Cell.box := cellAt_all_floor grid hfloor _ _
    have hshift : ∀ i : Int, 1 ≤ i → i ≤ (n : Int) →
        in_bounds (px + dx + dx * i) (py + dy + dy * i) = true := by
      intro i h1 h2
      have h := hib (i + 1) (by omega) (by push_cast; omega)
      rw [show px + dx * (i + 1) = px + dx + dx * i from by ring,
        show py + dy * (i + 1) = py + dy + dy * i from by ring] at h
      exact h
    simp only [raySpan]
    rw [if_neg (show ¬ ¬ in_bounds (px + dx) (py + dy) = true from fun hc => hc h0),
      if_neg hnb,
      if_neg (show ¬ ((([] : List Bomb).any fun b2 => b2.x == px + dx && b2.y == py + dy) = true)
        from by simp),
      List.mem_cons, ih (px + dx) (py + dy) dx dy hshift c]
    constructor
    · rintro (rfl | ⟨i, h1, h2, rfl⟩)
      · exact ⟨1, by omega, by push_cast; omega, Prod.ext (by ring) (by ring)⟩
      · exact ⟨i + 1, by omega, by push_cast at h2 ⊢; omega, Prod.ext (by ring) (by ring)⟩
    · rintro ⟨i, h1, h2, rfl⟩
      by_cases hi : i = 1
      · subst hi
        exact Or.inl (Prod.ext (by ring) (by ring))
      · exact Or.inr ⟨i - 1, by omega, by push_cast at h2 ⊢; omega,
          Prod.ext (by ring) (by ring)⟩

/-- With an empty registry, a blast step only scorches: registry, queued set,
queue and agents are untouched. -/
theorem propStep_no_bombs (grid : Grid) (b : Bomb) (s : PropState) (hb : s.bombs = []) :
    (propStep grid b s).bombs = [] ∧ (propStep grid b s).processed = s.processed ∧
    (propStep grid b s).queue = s.queue ∧ (propStep grid b s).agents = s.agents := by
  rw [propStep_eq]
  obtain ⟨a1, a2, a3, a4⟩ := castRay_no_bombs grid b.owner_id 0 (-1) (b.range - 1) b.x b.y
    { s with scorched := insert (b.x, b.y) s.scorched } hb
  obtain ⟨b1, b2, b3, b4⟩ := castRay_no_bombs grid b.owner_id 1 0 (b.range - 1) b.x b.y _ a1
  obtain ⟨c1, c2, c3, c4⟩ := castRay_no_bombs grid b.owner_id 0 1 (b.range - 1) b.x b.y _ b1
  obtain ⟨d1, d2, d3, d4⟩ := castRay_no_bombs grid b.owner_id (-1) 0 (b.range - 1) b.x b.y _ c1
  refine ⟨d1, ?_, ?_, ?_⟩
  · rw [d2, c2, b2, a2]
  · rw [d3, c3, b3, a3]
  · rw [d4, c4, b4, a4]

theorem castRay_scorched_nil (grid : Grid) (owner : Nat) (dx dy : Int) (steps : Nat)
    (px py : Int) (s : PropState) (hb : s.bombs = []) :
    (castRay grid owner dx dy steps px py s).scorched =
      s.scorched ∪ (raySpan grid [] steps px py dx dy).toFinset := by
  rw [castRay_scorched, hb]

/-- With an empty registry, one blast step scorches the center plus the four
ray spans. -/
theorem propStep_clear_scorched (grid : Grid) (b : Bomb) (s : PropState) (hb : s.bombs = []) :
    (propStep grid b s).scorched =
      insert (b.x, b.y) s.scorched ∪
        (raySpan grid [] (b.range - 1) b.x b.y 0 (-1)).toFinset ∪
        (raySpan grid [] (b.range - 1) b.x b.y 1 0).toFinset ∪
        (raySpan grid [] (b.range - 1) b.x b.y 0 1).toFinset ∪
        (raySpan grid [] (b.range - 1) b.x b.y (-1) 0).toFinset := by
  rw [propStep_eq]
  obtain ⟨a1, -, -, -⟩ := castRay_no_bombs grid b.owner_id 0 (-1) (b.range - 1) b.x b.y
    { s with scorched := insert (b.x, b.y) s.scorched } hb
  obtain ⟨b1, -, -, -⟩ := castRay_no_bombs grid b.owner_id 1 0 (b.range - 1) b.x b.y _ a1
  obtain ⟨c1, -, -, -⟩ := castRay_no_bombs grid b.owner_id 0 1 (b.range - 1) b.x b.y _ b1
  have hs0 : ({ s with scorched := insert (b.x, b.y) s.scorched } : PropState).bombs = [] := hb
  rw [castRay_scorched_nil grid b.owner_id (-1) 0 (b.range - 1) b.x b.y _ c1,
    castRay_scorched_nil grid b.owner_id 0 1 (b.range - 1) b.x b.y _ b1,
    castRay_scorched_nil grid b.owner_id 1 0 (b.range - 1) b.x b.y _ a1,
    castRay_scorched_nil grid b.owner_id 0 (-1) (b.range - 1) b.x b.y _ hs0]

/-- With no other bomb in play, the pass is exactly one blast step. -/
theorem propagateState_single (g : Game) (b : Bomb) (hb : g.bombs = []) :
    propagateState g [b] = propStep g.grid b { initProp g [b] with queue := [] } := by
  have hm : measureP (initProp g [b]) = 1 := by
    simp [measureP, initProp, hb]
  have hq : (propStep g.grid b { initProp g [b] with queue := [] }).queue = [] :=
    (propStep_no_bombs g.grid b { initProp g [b] with queue := [] } hb).2.2.1
  unfold propagateState propLoop
  rw [hm]
  have hstep : propLoopF g.grid (1 + 1) (initProp g [b]) =
      some (propStep g.grid b { initProp g [b] with queue := [] }) := by
    show propLoopF g.grid 1 (propStep g.grid b { initProp g [b] with queue := [] }) = _
    simp only [propLoopF]
    rw [hq]
  rw [hstep]
  rfl

/-- One cross arm as a membership predicate. -/
theorem raySpan_arm (grid : Grid) (hfloor : ∀ row ∈ grid, ∀ c ∈ row, c = Cell.floor)
    (r : Nat) (x y dx dy : Int)
    (hibs : ∀ i : Int, 1 ≤ i → i ≤ ((r - 1 : Nat) : Int) →
      in_bounds (x + dx * i) (y + dy * i) = true)
    (c : Coord) :
    c ∈ (raySpan grid [] (r - 1) x y dx dy).toFinset ↔
      ∃ i : Int, 1 ≤ i ∧ i < (r : Int) ∧ c = (x + dx * i, y + dy * i) := by
  rw [List.mem_toFinset, raySpan_clear_mem grid hfloor (r - 1) x y dx dy hibs c]
  constructor
  · rintro ⟨i, h1, h2, rfl⟩
    have h3 : i < (r : Int) := by omega
    exact ⟨i, h1, h3, rfl⟩
  · rintro ⟨i, h1, h2, rfl⟩
    have h3 : i ≤ ((r - 1 : Nat) : Int) := by omega
    exact ⟨i, h1, h3, rfl⟩

/-- **C5**: a single detonating bomb on a boxless, bombless grid whose cross
arms stay in bounds scorches exactly the 4-armed cross of radius
`range - 1` around its center (no corners, nothing else), and the resulting
explosion set replaces the previous turn's set rather than accumulating into
it. -/
theorem claim_C5 (g : Game) (b : Bomb) (hb : g.bombs = [])
    (hfloor : ∀ row ∈ g.grid, ∀ c ∈ row, c = Cell.floor)
    (harm : ∀ i : Nat, i < b.range → 1 ≤ i →
      in_bounds (b.x + (i : Int)) b.y = true ∧ in_bounds (b.x - (i : Int)) b.y = true ∧
      in_bounds b.x (b.y + (i : Int)) = true ∧ in_bounds b.x (b.y - (i : Int)) = true) :
    (∀ c : Coord, c ∈ (g.propagate_explosions [b]).explosions ↔
      (c = (b.x, b.y) ∨ ∃ i : Int, 1 ≤ i ∧ i < (b.range : Int) ∧
        (c = (b.x + i, b.y) ∨ c = (b.x - i, b.y) ∨ c = (b.x, b.y + i) ∨ c = (b.x, b.y - i)))) ∧
    (∀ E : Finset Coord,
      Game.propagate_explosions { g with explosions := E } [b] = g.propagate_explosions [b]) := by
  have harmI : ∀ i : Int, 1 ≤ i → i ≤ ((b.range - 1 : Nat) : Int) →
      in_bounds (b.x + i) b.y = true ∧ in_bounds (b.x - i) b.y = true ∧
      in_bounds b.x (b.y + i) = true ∧ in_bounds b.x (b.y - i) = true := by
    intro i h1 h2
    have h := harm i.toNat (by omega) (by omega)
    have hti : ((i.toNat : Nat) : Int) = i := Int.toNat_of_nonneg (by omega)
    rw [hti] at h
    exact h
  constructor
  · intro c
    show c ∈ (propagateState g [b]).scorched ↔ _
    rw [propagateState_single g b hb,
      propStep_clear_scorched g.grid b { initProp g [b] with queue := [] } hb]
    have hup := raySpan_arm g.grid hfloor b.range b.x b.y 0 (-1) (by
        intro i h1 h2
        rw [show b.x + 0 * i = b.x from by ring, show b.y + -1 * i = b.y - i from by ring]
        exact (harmI i h1 h2).2.2.2) c
    have hright := raySpan_arm g.grid hfloor b.range b.x b.y 1 0 (by
        intro i h1 h2
        rw [show b.x + 1 * i = b.x + i from by ring, show b.y + 0 * i = b.y from by ring]
        exact (harmI i h1 h2).1) c
    have hdown := raySpan_arm g.grid hfloor b.range b.x b.y 0 1 (by
        intro i h1 h2
        rw [show b.x + 0 * i = b.x from by ring, show b.y + 1 * i = b.y + i from by ring]
        exact (harmI i h1 h2).2.2.1) c
    have hleft := raySpan_arm g.grid hfloor b.range b.x b.y (-1) 0 (by
        intro i h1 h2
        rw [show b.x + -1 * i = b.x - i from by ring, show b.y + 0 * i = b.y from by ring]
        exact (harmI i h1 h2).2.1) c
    rw [Finset.mem_union, Finset.mem_union, Finset.mem_union, Finset.mem_union,
      Finset.mem_insert, hup, hright, hdown, hleft]
    show ((((c = (b.x, b.y) ∨ c ∈ (∅ : Finset Coord)) ∨ _) ∨ _) ∨ _) ∨ _ ↔ _
    simp only [Finset.not_mem_empty, or_false]
    constructor
    · rintro ((((hc | ⟨i, h1, h2, hc⟩) | ⟨i, h1, h2, hc⟩) | ⟨i, h1, h2, hc⟩) | ⟨i, h1, h2, hc⟩)
      · exact Or.inl hc
      · exact Or.inr ⟨i, h1, h2, Or.inr (Or.inr (Or.inr
          (hc.trans (Prod.ext (by ring) (by ring)))))⟩
      · exact Or.inr ⟨i, h1, h2, Or.inl (hc.trans (Prod.ext (by ring) (by ring)))⟩
      · exact Or.inr ⟨i, h1, h2, Or.inr (Or.inr (Or.inl
          (hc.trans (Prod.ext (by ring) (by ring)))))⟩
      · exact Or.inr ⟨i, h1, h2, Or.inr (Or.inl (hc.trans (Prod.ext (by ring) (by ring))))⟩
    · rintro (hc | ⟨i, h1, h2, (hc | hc | hc | hc)⟩)
      · exact Or.inl (Or.inl (Or.inl (Or.inl hc)))
      · exact Or.inl (Or.inl (Or.inr ⟨i, h1, h2, hc.trans (Prod.ext (by ring) (by ring))⟩))
      · exact Or.inr ⟨i, h1, h2, hc.trans (Prod.ext (by ring) (by ring))⟩
      · exact Or.inl (Or.inr ⟨i, h1, h2, hc.trans (Prod.ext (by ring) (by ring))⟩)
      · exact Or.inl (Or.inl (Or.inl (Or.inr ⟨i, h1, h2,
          hc.trans (Prod.ext (by ring) (by ring))⟩)))
  · intro E
    rfl

/-- Witness for C5: a range-3 bomb at (5, 6) on the open grid scorches the
cell above its center. -/
theorem claim_C5_witness :
    ((5 : Int), (5 : Int)) ∈
      (gOpen.propagate_explosions
        [({ owner_id := 0, x := 5, y := 6, timer := 0, range := 3 } : Bomb)]).explosions :=
  ((claim_C5 gOpen { owner_id := 0, x := 5, y := 6, timer := 0, range := 3 } rfl
      (by decide) (by decide)).1 (5, 5)).2
    (Or.inr ⟨1, by decide, by decide, Or.inr (Or.inr (Or.inr (by decide)))⟩)

/-! ## Breadth-first search (claim C8)

The spec describes `Game.path` as a breadth-first search over the
4-connected walkable graph on `(row, col)` cells. The next two definitions
formalise that graph following the spec's words; the claim relates them to
the `Game.path` implementation. -/

/-- One edge of the 4-connected walkable graph: `b` is one of the four
neighbors of `a` and is walkable (its column is `b.2`, its row `b.1`). -/
def stepW (g : Game) (a b : Coord) : Prop :=
  (∃ d ∈ DIRECTIONS, b = (a.1 + d.1, a.2 + d.2)) ∧ g.walkable b.2 b.1 = true

/-- A walk of the 4-connected walkable graph from `a` to `b` (the start cell
itself is never checked for walkability, matching the search). -/
def WalkFT (g : Game) (a b : Coord) (w : List Coord) : Prop :=
  List.Chain' (stepW g) w ∧ w.head? = some a ∧ w.getLast? = some b

theorem walk_singleton (g : Game) (a b x : Coord) (h : WalkFT g a b [x]) : a = b := by
  obtain ⟨-, h2, h3⟩ := h
  simp only [List.head?_cons, Option.some.injEq] at h2
  simp only [List.getLast?_singleton, Option.some.injEq] at h3
  rw [← h2, ← h3]

theorem walk_length_pos (g : Game) (a b : Coord) (w : List Coord) (h : WalkFT g a b w) :
    1 ≤ w.length := by
  rcases w with _ | ⟨z, t⟩
  · simp [WalkFT] at h
  · simp

/-- Splitting the last step off a walk of at least two cells. -/
theorem walk_concat (g : Game) (a x : Coord) (w : List Coord) (h : WalkFT g a x w)
    (hlen : 1 < w.length) :
    ∃ w2 y, w = w2 ++ [x] ∧ WalkFT g a y w2 ∧ stepW g y x ∧ w2.length + 1 = w.length := by
  obtain ⟨hch, hhd, hlast⟩ := h
  rcases List.eq_nil_or_concat' w with rfl | ⟨w2, z, rfl⟩
  · simp at hlen
  · have hz : z = x := by
      rw [List.getLast?_append_cons w2 z []] at hlast
      simpa using hlast
    subst hz
    have hw2 : w2 ≠ [] := by
      intro hc
      subst hc
      simp at hlen
    obtain ⟨y, hy⟩ := List.getLast?_isSome.2 hw2 |> Option.isSome_iff_exists.1
    rw [List.chain'_append] at hch
    refine ⟨w2, y, rfl, ⟨hch.1, ?_, hy⟩, ?_, ?_⟩
    · rcases w2 with _ | ⟨u, t⟩
      · exact absurd rfl hw2
      · simpa using hhd
    · exact hch.2.2 y hy z (by simp)
    · simp


/-- If a visited set is closed under walkable steps, it swallows every walk
that starts inside it. -/
theorem reach_closed (g : Game) (v : Finset Coord)
    (hcl : ∀ y ∈ v, ∀ z, stepW g y z → z ∈ v) :
    ∀ (w : List Coord) (a x : Coord), WalkFT g a x w → a ∈ v → x ∈ v := by
  intro w
  induction w with
  | nil =>
    intro a x h
    simp [WalkFT] at h
  | cons z t ih =>
    intro a x h ha
    obtain ⟨hch, hhd, hlast⟩ := h
    have hz : z = a := by simpa using hhd
    subst hz
    rcases t with _ | ⟨b, t2⟩
    · have hxz : z = x := by simpa using hlast
      rw [← hxz]
      exact ha
    · rw [List.chain'_cons] at hch
      have hb : b ∈ v := hcl z ha b hch.1
      exact ih b x ⟨hch.2, rfl, by simpa using hlast⟩ hb

/-- One step moves the Manhattan distance to any target by at most one. -/
theorem stepW_manh (g : Game) (a b c : Coord) (h : stepW g a b) :
    manh a c ≤ manh b c + 1 := by
  obtain ⟨⟨d, hd, rfl⟩, -⟩ := h
  simp only [DIRECTIONS, List.mem_cons, List.not_mem_nil, or_false] at hd
  unfold manh
  rcases hd with rfl | rfl | rfl | rfl <;> simp only [] <;> omega

/-- Every walk needs at least Manhattan-distance-many steps. -/
theorem walk_manh (g : Game) :
    ∀ (w : List Coord) (a x : Coord), WalkFT g a x w → manh a x + 1 ≤ w.length := by
  intro w
  induction w with
  | nil =>
    intro a x h
    simp [WalkFT] at h
  | cons z t ih =>
    intro a x h
    obtain ⟨hch, hhd, hlast⟩ := h
    have hz : z = a := by simpa using hhd
    subst hz
    rcases t with _ | ⟨b, t2⟩
    · have hxz : z = x := by simpa using hlast
      subst hxz
      simp [manh]
    · rw [List.chain'_cons] at hch
      have h1 := ih b x ⟨hch.2, rfl, by simpa using hlast⟩
      have h2 := stepW_manh g z b x hch.1
      simp only [List.length_cons] at h1 ⊢
      omega

/-- What the 4-direction expansion fold does to the search state: it appends
a duplicate-free batch of newly discovered entries, marks exactly their cells
visited, and every walkable neighbor along a processed direction ends up
visited. -/
theorem bfsExpand_foldl (g : Game) (cur : Coord) (p : List Coord) :
    ∀ (ds : List (Int × Int)) (v0 : Finset Coord) (q0 : List (Coord × List Coord)),
      ∃ news : List (Coord × List Coord),
        (ds.foldl (bfsExpand g cur p) (v0, q0)).2 = q0 ++ news ∧
        (ds.foldl (bfsExpand g cur p) (v0, q0)).1 = v0 ∪ (news.map Prod.fst).toFinset ∧
        (∀ f ∈ news, (∃ d ∈ ds, f.1 = (cur.1 + d.1, cur.2 + d.2)) ∧
          f.2 = p ++ [f.1] ∧ g.walkable f.1.2 f.1.1 = true ∧ f.1 ∉ v0) ∧
        (news.map Prod.fst).Nodup ∧
        (∀ d ∈ ds, g.walkable (cur.2 + d.2) (cur.1 + d.1) = true →
          ((cur.1 + d.1, cur.2 + d.2) : Coord) ∈ (ds.foldl (bfsExpand g cur p) (v0, q0)).1) := by
  intro ds
  induction ds with
  | nil =>
    intro v0 q0
    exact ⟨[], by simp, by simp, by simp, by simp, by simp⟩
  | cons d ds ih =>
    intro v0 q0
    rw [List.foldl_cons]
    by_cases hc : g.walkable (cur.2 + d.2) (cur.1 + d.1) = true ∧
        ((cur.1 + d.1, cur.2 + d.2) : Coord) ∉ v0
    · have hexp : bfsExpand g cur p (v0, q0) d =
          (insert (cur.1 + d.1, cur.2 + d.2) v0,
            q0 ++ [((cur.1 + d.1, cur.2 + d.2), p ++ [(cur.1 + d.1, cur.2 + d.2)])]) := by
        simp only [bfsExpand]
        rw [if_pos hc]
      rw [hexp]
      obtain ⟨news, h1, h2, h3, h4, h5⟩ := ih (insert (cur.1 + d.1, cur.2 + d.2) v0)
        (q0 ++ [((cur.1 + d.1, cur.2 + d.2), p ++ [(cur.1 + d.1, cur.2 + d.2)])])
      refine ⟨((cur.1 + d.1, cur.2 + d.2), p ++ [(cur.1 + d.1, cur.2 + d.2)]) :: news,
        ?_, ?_, ?_, ?_, ?_⟩
      · rw [h1, List.append_assoc]
        rfl
      · rw [h2, List.map_cons, List.toFinset_cons, Finset.union_insert, Finset.insert_union]
      · intro f hf
        rcases List.mem_cons.1 hf with heq | hf2
        · subst heq
          exact ⟨⟨d, List.mem_cons_self _ _, rfl⟩, rfl, hc.1, hc.2⟩
        · obtain ⟨⟨d2, hd2, hfd⟩, hf3, hf4, hf5⟩ := h3 f hf2
          exact ⟨⟨d2, List.mem_cons_of_mem _ hd2, hfd⟩, hf3, hf4,
            fun hv => hf5 (Finset.mem_insert_of_mem hv)⟩
      · rw [List.map_cons, List.nodup_cons]
        refine ⟨?_, h4⟩
        intro hmem
        rcases List.mem_map.1 hmem with ⟨f, hf, hfe⟩
        have hni := (h3 f hf).2.2.2
        rw [hfe] at hni
        exact hni (Finset.mem_insert_self _ _)
      · intro d0 hd0 hw
        rcases List.mem_cons.1 hd0 with heq | hd02
        · subst heq
          rw [h2]
          exact Finset.mem_union_left _ (Finset.mem_insert_self _ _)
        · exact h5 d0 hd02 hw
    · have hexp : bfsExpand g cur p (v0, q0) d = (v0, q0) := by
        simp only [bfsExpand]
        rw [if_neg hc]
      rw [hexp]
      obtain ⟨news, h1, h2, h3, h4, h5⟩ := ih v0 q0
      refine ⟨news, h1, h2, ?_, h4, ?_⟩
      · intro f hf
        obtain ⟨⟨d2, hd2, hfd⟩, hf3, hf4, hf5⟩ := h3 f hf
        exact ⟨⟨d2, List.mem_cons_of_mem _ hd2, hfd⟩, hf3, hf4, hf5⟩
      intro d0 hd0 hw
      rcases List.mem_cons.1 hd0 with heq | hd02
      · subst heq
        have hrc : ((cur.1 + d0.1, cur.2 + d0.2) : Coord) ∈ v0 := by
          by_contra hnot
          exact hc ⟨hw, hnot⟩
        rw [h2]
        exact Finset.mem_union_left _ hrc
      · exact h5 d0 hd02 hw

/-- The loop invariant of the breadth-first search in `Game.path`: the start
is visited; queue entries carry genuine walks from `src` ending at their
cell, which is visited; path lengths along the queue are nondecreasing and
span at most two consecutive values; every queue entry is a shortest walk to
its cell; every expanded (visited, no longer queued) cell has all its
walkable neighbors visited; and `dst`, once visited, is still queued. -/
def BfsInv (g : Game) (src dst : Coord)
    (vq : Finset Coord × List (Coord × List Coord)) : Prop :=
  src ∈ vq.1 ∧
  (∀ e ∈ vq.2, ∃ rest, e.2 = src :: rest ∧ WalkFT g src e.1 (src :: rest)) ∧
  (∀ e ∈ vq.2, e.1 ∈ vq.1) ∧
  List.Pairwise (fun a b : Coord × List Coord =>
    a.2.length ≤ b.2.length ∧ b.2.length ≤ a.2.length + 1) vq.2 ∧
  (∀ e ∈ vq.2, ∀ w, WalkFT g src e.1 w → e.2.length ≤ w.length) ∧
  (∀ y ∈ vq.1, (∀ e ∈ vq.2, e.1 ≠ y) → ∀ z, stepW g y z → z ∈ vq.1) ∧
  (dst ∈ vq.1 → ∃ e ∈ vq.2, e.1 = dst)

theorem bfsInv_init (g : Game) (src dst : Coord) : BfsInv g src dst (bfsInit src) := by
  refine ⟨Finset.mem_singleton_self src, ?_, ?_, ?_, ?_, ?_, ?_⟩
  · intro e he
    simp only [bfsInit, List.mem_singleton] at he
    subst he
    exact ⟨[], rfl, ⟨List.chain'_singleton _, rfl, rfl⟩⟩
  · intro e he
    simp only [bfsInit, List.mem_singleton] at he
    subst he
    exact Finset.mem_singleton_self src
  · exact List.pairwise_singleton _ _
  · intro e he w hw
    simp only [bfsInit, List.mem_singleton] at he
    subst he
    exact walk_length_pos g src _ w hw
  · intro y hy hq z hz
    simp only [bfsInit, Finset.mem_singleton] at hy
    exact absurd hy.symm (hq (src, [src]) (List.mem_singleton_self _))
  · intro hd
    simp only [bfsInit, Finset.mem_singleton] at hd
    exact ⟨(src, [src]), List.mem_singleton_self _, hd.symm⟩

/-- Any walk from `src` to a cell not yet visited is at least one step longer
than the head entry of the queue. -/
theorem bfs_min_new (g : Game) (src : Coord) (v : Finset Coord)
    (q : List (Coord × List Coord)) (L : Nat)
    (hsrc : src ∈ v)
    (hcur : ∀ e ∈ q, e.1 ∈ v)
    (hmin : ∀ e ∈ q, ∀ w, WalkFT g src e.1 w → e.2.length ≤ w.length)
    (hlev : ∀ e ∈ q, L ≤ e.2.length)
    (hclose : ∀ y ∈ v, (∀ e ∈ q, e.1 ≠ y) → ∀ z, stepW g y z → z ∈ v) :
    ∀ (n : Nat) (w : List Coord) (x : Coord), w.length = n → WalkFT g src x w → x ∉ v →
      L + 1 ≤ n := by
  intro n
  induction n using Nat.strong_induction_on with
  | _ n ih =>
    intro w x hlen hw hx
    by_cases hone : 1 < w.length
    · obtain ⟨w2, y, rfl, hw2, hstep, hlen2⟩ := walk_concat g src x w hw hone
      by_cases hy : y ∈ v
      · by_cases hq : ∀ e ∈ q, e.1 ≠ y
        · exact absurd (hclose y hy hq x hstep) hx
        · push_neg at hq
          obtain ⟨e, he, hey⟩ := hq
          have hm := hmin e he w2 (by rw [hey]; exact hw2)
          have hl := hlev e he
          omega
      · have := ih (n - 1) (by omega) w2 y (by omega) hw2 hy
        omega
    · rcases w with _ | ⟨z, t⟩
      · simp [WalkFT] at hw
      · rcases t with _ | ⟨z2, t2⟩
        · have := walk_singleton g src x z hw
          rw [← this] at hx
          exact absurd hsrc hx
        · simp at hone

/-- Extending a walk by one step. -/
theorem walk_snoc (g : Game) (a y z : Coord) (w : List Coord) (h : WalkFT g a y w)
    (hz : stepW g y z) : WalkFT g a z (w ++ [z]) := by
  obtain ⟨hch, hhd, hlast⟩ := h
  refine ⟨?_, ?_, ?_⟩
  · rw [List.chain'_append]
    refine ⟨hch, List.chain'_singleton _, ?_⟩
    intro x hx y2 hy2
    rw [hlast, Option.mem_some_iff] at hx
    simp only [List.head?_cons, Option.mem_some_iff] at hy2
    rw [← hx, ← hy2]
    exact hz
  · rcases w with _ | ⟨w0, t⟩
    · simp at hhd
    · simpa using hhd
  · rw [List.getLast?_append_cons w z []]
    rfl

/-- The search invariant survives one dequeue-and-expand step. -/
theorem bfsInv_step (g : Game) (src dst cur : Coord) (p : List Coord)
    (v : Finset Coord) (rest : List (Coord × List Coord))
    (hinv : BfsInv g src dst (v, (cur, p) :: rest)) (hne : cur ≠ dst) :
    BfsInv g src dst (DIRECTIONS.foldl (bfsExpand g cur p) (v, rest)) := by
  obtain ⟨hsrc, hwalk, hcurv, hpair, hmin, hclose, hdst⟩ := hinv
  obtain ⟨news, h1, h2, h3, h4, h5⟩ := bfsExpand_foldl g cur p DIRECTIONS v rest
  have hpair2 := List.pairwise_cons.1 hpair
  have hstepf : ∀ f ∈ news, stepW g cur f.1 := by
    intro f hf
    obtain ⟨⟨d, hd, hfd⟩, -, hf4, -⟩ := h3 f hf
    exact ⟨⟨d, hd, hfd⟩, hf4⟩
  have hlenf : ∀ f ∈ news, f.2.length = p.length + 1 := by
    intro f hf
    rw [(h3 f hf).2.1]
    simp
  have hminf : ∀ f ∈ news, ∀ w, WalkFT g src f.1 w → f.2.length ≤ w.length := by
    intro f hf w hw
    have hx : f.1 ∉ v := (h3 f hf).2.2.2
    have hlev : ∀ e ∈ (cur, p) :: rest, p.length ≤ e.2.length := by
      intro e he
      rcases List.mem_cons.1 he with heq | he2
      · rw [heq]
      · exact (hpair2.1 e he2).1
    have := bfs_min_new g src v ((cur, p) :: rest) p.length hsrc
      (fun e he => hcurv e he) (fun e he => hmin e he) hlev
      (fun y hy hq z hz => hclose y hy hq z hz)
      w.length w f.1 rfl hw hx
    rw [hlenf f hf]
    exact this
  refine ⟨?_, ?_, ?_, ?_, ?_, ?_, ?_⟩
  · rw [h2]
    exact Finset.mem_union_left _ hsrc
  · intro e he
    rw [h1] at he
    rcases List.mem_append.1 he with he2 | he2
    · exact hwalk e (List.mem_cons_of_mem _ he2)
    · obtain ⟨rest0, hp, hw⟩ := hwalk (cur, p) (List.mem_cons_self _ _)
      refine ⟨rest0 ++ [e.1], ?_, ?_⟩
      · rw [(h3 e he2).2.1]
        show p ++ [e.1] = src :: (rest0 ++ [e.1])
        have hp2 : p = src :: rest0 := hp
        rw [hp2]
        rfl
      · show WalkFT g src e.1 ((src :: rest0) ++ [e.1])
        exact walk_snoc g src cur e.1 (src :: rest0) hw (hstepf e he2)
  · intro e he
    rw [h1] at he
    rw [h2]
    rcases List.mem_append.1 he with he2 | he2
    · exact Finset.mem_union_left _ (hcurv e (List.mem_cons_of_mem _ he2))
    · apply Finset.mem_union_right
      rw [List.mem_toFinset]
      exact List.mem_map_of_mem _ he2
  · rw [h1, List.pairwise_append]
    refine ⟨hpair2.2, ?_, ?_⟩
    · apply List.pairwise_of_forall_mem_list
      intro a ha b hb
      rw [hlenf a ha, hlenf b hb]
      omega
    · intro a ha b hb
      have h6 : p.length ≤ a.2.length ∧ a.2.length ≤ p.length + 1 := hpair2.1 a ha
      rw [hlenf b hb]
      omega
  · intro e he w hw
    rw [h1] at he
    rcases List.mem_append.1 he with he2 | he2
    · exact hmin e (List.mem_cons_of_mem _ he2) w hw
    · exact hminf e he2 w hw
  · intro y hy hq z hz
    rw [h2] at hy
    rw [h1] at hq
    rw [h2]
    rcases Finset.mem_union.1 hy with hy2 | hy2
    · by_cases hyc : y = cur
      · subst hyc
        obtain ⟨⟨d, hd, hzd⟩, hzw⟩ := hz
        have := h5 d hd (by rw [hzd] at hzw; exact hzw)
        rw [h2] at this
        rw [hzd]
        exact this
      · have hq2 : ∀ e ∈ (cur, p) :: rest, e.1 ≠ y := by
          intro e he
          rcases List.mem_cons.1 he with heq | he2
          · rw [heq]
            exact fun hc => hyc hc.symm
          · exact hq e (List.mem_append_left _ he2)
        exact Finset.mem_union_left _ (hclose y hy2 hq2 z hz)
    · exfalso
      rw [List.mem_toFinset] at hy2
      obtain ⟨f, hf, hfy⟩ := List.mem_map.1 hy2
      exact hq f (List.mem_append_right _ hf) hfy
  · intro hd
    rw [h2] at hd
    rw [h1]
    rcases Finset.mem_union.1 hd with hd2 | hd2
    · obtain ⟨e, he, hed⟩ := hdst hd2
      rcases List.mem_cons.1 he with heq | he2
      · exfalso
        apply hne
        rw [← hed, heq]
      · exact ⟨e, List.mem_append_left _ he2, hed⟩
    · rw [List.mem_toFinset] at hd2
      obtain ⟨f, hf, hfd⟩ := List.mem_map.1 hd2
      exact ⟨f, List.mem_append_right _ hf, hfd⟩

theorem walkable_mem_allCells (g : Game) (c : Coord) (h : g.walkable c.2 c.1 = true) :
    c ∈ allCellsRC := by
  have hib : in_bounds c.2 c.1 = true := by
    by_contra hc
    rw [walkable_oob g c.2 c.1 hc] at h
    exact Bool.false_ne_true h
  simp only [in_bounds, WIDTH, HEIGHT, Bool.and_eq_true, decide_eq_true_eq,
    Bool.decide_and] at hib
  unfold allCellsRC
  rw [Finset.mem_image]
  refine ⟨(c.1.toNat, c.2.toNat), ?_, ?_⟩
  · rw [Finset.mem_product]
    constructor <;> rw [Finset.mem_range] <;> omega
  · have h1 : ((c.1.toNat : Nat) : Int) = c.1 := Int.toNat_of_nonneg (by omega)
    have h2 : ((c.2.toNat : Nat) : Int) = c.2 := Int.toNat_of_nonneg (by omega)
    exact Prod.ext h1 h2

/-- Each dequeue-and-expand step strictly shrinks the search measure. -/
theorem measureB_step (g : Game) (cur : Coord) (p : List Coord) (v : Finset Coord)
    (rest : List (Coord × List Coord)) :
    measureB (DIRECTIONS.foldl (bfsExpand g cur p) (v, rest)) <
      measureB (v, (cur, p) :: rest) := by
  obtain ⟨news, h1, h2, h3, h4, -⟩ := bfsExpand_foldl g cur p DIRECTIONS v rest
  have hsub : (List.map Prod.fst news).toFinset ⊆ allCellsRC \ v := by
    intro z hz
    rw [List.mem_toFinset] at hz
    obtain ⟨f, hf, rfl⟩ := List.mem_map.1 hz
    rw [Finset.mem_sdiff]
    exact ⟨walkable_mem_allCells g f.1 (h3 f hf).2.2.1, (h3 f hf).2.2.2⟩
  have hsd : allCellsRC \ (v ∪ (List.map Prod.fst news).toFinset) =
      (allCellsRC \ v) \ (List.map Prod.fst news).toFinset := by
    ext z
    simp only [Finset.mem_sdiff, Finset.mem_union]
    constructor
    · rintro ⟨ha, hb⟩
      exact ⟨⟨ha, fun hc => hb (Or.inl hc)⟩, fun hc => hb (Or.inr hc)⟩
    · rintro ⟨⟨ha, hb⟩, hc⟩
      exact ⟨ha, fun h => h.elim hb hc⟩
  have hcard : (allCellsRC \ (v ∪ (List.map Prod.fst news).toFinset)).card =
      (allCellsRC \ v).card - news.length := by
    rw [hsd, Finset.card_sdiff hsub, List.toFinset_card_of_nodup h4, List.length_map]
  have hle : news.length ≤ (allCellsRC \ v).card := by
    have hc := Finset.card_le_card hsub
    rw [List.toFinset_card_of_nodup h4, List.length_map] at hc
    exact hc
  unfold measureB
  rw [h1, h2, hcard]
  simp only [List.length_append, List.length_cons]
  omega

/-- The search loop always produces a result, and the result is correct:
a returned cell is the first step of a shortest walk from `src` to `dst`,
and `none` means `src = dst` or `dst` is unreachable. -/
theorem bfsLoop_main (g : Game) (src dst : Coord) :
    ∀ (fuel : Nat) (v : Finset Coord) (q : List (Coord × List Coord)),
      measureB (v, q) < fuel → BfsInv g src dst (v, q) →
      ∃ r, bfsLoopF g dst fuel (v, q) = some r ∧
        (∀ c, r = some c →
          ∃ rest, WalkFT g src dst (src :: rest) ∧ (src :: rest)[1]? = some c ∧
            ∀ w, WalkFT g src dst w → (src :: rest).length ≤ w.length) ∧
        (r = none → src = dst ∨ ∀ w, ¬ WalkFT g src dst w) := by
  intro fuel
  induction fuel with
  | zero =>
    intro v q h
    omega
  | succ n ih =>
    intro v q hm hinv
    obtain ⟨hsrc, hwalk, hcurv, hpair, hmin, hclose, hdst⟩ := hinv
    rcases hq : q with _ | ⟨⟨cur, p⟩, rest⟩
    · subst hq
      refine ⟨none, rfl, ?_, ?_⟩
      · intro c hc
        exact absurd hc (by simp)
      · intro _hr
        by_cases hsd : src = dst
        · exact Or.inl hsd
        · refine Or.inr ?_
          intro w hw
          have hcl : ∀ y ∈ v, ∀ z : Coord, stepW g y z → z ∈ v := by
            intro y hy z hz
            exact hclose y hy (fun e he => absurd he (List.not_mem_nil _)) z hz
          have hdv : dst ∈ v := reach_closed g v hcl w src dst hw hsrc
          obtain ⟨e, he, -⟩ := hdst hdv
          exact absurd he (List.not_mem_nil _)
    · subst hq
      have hunf : bfsLoopF g dst (n + 1) (v, (cur, p) :: rest) =
          if cur = dst then some p[1]?
          else bfsLoopF g dst n (DIRECTIONS.foldl (bfsExpand g cur p) (v, rest)) := rfl
      by_cases hd : cur = dst
      · obtain ⟨rest0, hp, hw⟩ := hwalk (cur, p) (List.mem_cons_self _ _)
        have hp2 : p = src :: rest0 := hp
        have hwd : WalkFT g src dst (src :: rest0) := by
          rw [← hd]
          exact hw
        refine ⟨p[1]?, by rw [hunf, if_pos hd], ?_, ?_⟩
        · intro c hc
          refine ⟨rest0, hwd, ?_, ?_⟩
          · rw [← hp2]
            exact hc
          · intro w hww
            have hm2 := hmin (cur, p) (List.mem_cons_self _ _) w (by rw [hd]; exact hww)
            rw [← hp2]
            exact hm2
        · intro hc
          rw [hp2] at hc
          rcases rest0 with _ | ⟨c0, t⟩
          · have := walk_singleton g src dst src hwd
            exact Or.inl this
          · simp at hc
      · have hinv2 : BfsInv g src dst (v, (cur, p) :: rest) :=
          ⟨hsrc, hwalk, hcurv, hpair, hmin, hclose, hdst⟩
        have hinv3 := bfsInv_step g src dst cur p v rest hinv2 hd
        have hm2 : measureB (DIRECTIONS.foldl (bfsExpand g cur p) (v, rest)) < n := by
          have := measureB_step g cur p v rest
          omega
        obtain ⟨r, hr, hrs, hrn⟩ := ih (DIRECTIONS.foldl (bfsExpand g cur p) (v, rest)).1
          (DIRECTIONS.foldl (bfsExpand g cur p) (v, rest)).2 hm2 hinv3
        refine ⟨r, ?_, hrs, hrn⟩
        rw [hunf, if_neg hd]
        exact hr

/-- Packaged correctness of `Game.path`: a returned cell is the first step of
a shortest walk to `dst`; `none` means `src = dst` or `dst` unreachable. -/
theorem path_main (g : Game) (src dst : Coord) :
    (∀ c, g.path src dst = some c →
      ∃ rest, WalkFT g src dst (src :: rest) ∧ (src :: rest)[1]? = some c ∧
        ∀ w, WalkFT g src dst w → (src :: rest).length ≤ w.length) ∧
    (g.path src dst = none → src = dst ∨ ∀ w, ¬ WalkFT g src dst w) := by
  obtain ⟨r, hr, hrs, hrn⟩ := bfsLoop_main g src dst (measureB (bfsInit src) + 1)
    (bfsInit src).1 (bfsInit src).2 (Nat.lt_succ_self _) (bfsInv_init g src dst)
  have hr2 : bfsLoopF g dst (measureB (bfsInit src) + 1) (bfsInit src) = some r := hr
  have hpath : g.path src dst = r := by
    unfold Game.path
    rw [hr2]
    rfl
  constructor
  · intro c hc
    exact hrs c (by rw [← hpath]; exact hc)
  · intro hc
    exact hrn (by rw [← hpath]; exact hc)

/-- The search never moves off its own start cell. -/
theorem path_self (g : Game) (src : Coord) : g.path src src = none := by
  have hunf : bfsLoopF g src (measureB (bfsInit src) + 1) (bfsInit src) =
      if src = src then some (([src] : List Coord)[1]?)
      else bfsLoopF g src (measureB (bfsInit src))
        (DIRECTIONS.foldl (bfsExpand g src [src]) ({src}, [])) := rfl
  unfold Game.path
  rw [hunf, if_pos rfl]
  rfl

theorem cellAt_floor_eq (grid : Grid) (hfloor : ∀ row ∈ grid, ∀ c ∈ row, c = Cell.floor)
    (x y : Int) : cellAt grid x y = Cell.floor := by
  cases hc : cellAt grid x y with
  | floor => rfl
  | box => exact absurd hc (cellAt_all_floor grid hfloor x y)

theorem gOpen_walkable (x y : Int) (hib : in_bounds x y = true) :
    gOpen.walkable x y = true := by
  rw [walkable_no_bomb gOpen x y hib rfl,
    cellAt_floor_eq gOpen.grid (by decide) x y]
  rfl

/-- The straight walk `[(r, n), (r, n-1), ..., (r, 0)]`. -/
def rowPath (r : Int) : Nat → List Coord
  | 0 => [(r, 0)]
  | n + 1 => (r, ((n : Int) + 1)) :: rowPath r n

theorem rowPath_length (r : Int) : ∀ n, (rowPath r n).length = n + 1
  | 0 => rfl
  | n + 1 => by
    show (rowPath r n).length + 1 = n + 1 + 1
    rw [rowPath_length r n]

theorem rowPath_head (r : Int) : ∀ n, (rowPath r n).head? = some (r, (n : Int))
  | 0 => rfl
  | n + 1 => by
    show some ((r, ((n : Int) + 1)) : Coord) = some ((r, ((n + 1 : Nat) : Int)) : Coord)
    norm_num

theorem rowPath_last (r : Int) : ∀ n, (rowPath r n).getLast? = some (r, 0)
  | 0 => rfl
  | n + 1 => by
    show ((r, ((n : Int) + 1)) :: rowPath r n).getLast? = some (r, 0)
    rcases hrp : rowPath r n with _ | ⟨h0, t⟩
    · exfalso
      have := rowPath_length r n
      rw [hrp] at this
      simp at this
    · rw [List.getLast?_cons_cons, ← hrp]
      exact rowPath_last r n

theorem rowPath_chain : ∀ n : Nat, n < 13 → List.Chain' (stepW gOpen) (rowPath 5 n) := by
  intro n
  induction n with
  | zero =>
    intro _
    exact List.chain'_singleton _
  | succ m ih =>
    intro hn
    show List.Chain' (stepW gOpen) (((5 : Int), ((m : Int) + 1)) :: rowPath 5 m)
    rw [List.chain'_cons']
    refine ⟨?_, ih (by omega)⟩
    intro y hy
    rw [rowPath_head 5 m, Option.mem_some_iff] at hy
    subst hy
    refine ⟨⟨(0, -1), by decide, ?_⟩, ?_⟩
    · exact Prod.ext (by ring) (by ring)
    · apply gOpen_walkable
      simp only [in_bounds, WIDTH, HEIGHT, Bool.and_eq_true, decide_eq_true_eq,
        Bool.decide_and]
      omega

theorem rowPath_walk (n : Nat) (hn : n < 13) :
    WalkFT gOpen (5, (n : Int)) (5, 0) (rowPath 5 n) :=
  ⟨rowPath_chain n hn, rowPath_head 5 n, rowPath_last 5 n⟩

/-- The spec's concrete instances: on the open grid the first step from
`(5, x)` toward `(5, 0)` is `(5, x - 1)`. -/
theorem path_instance (k : Nat) (hk : k < 12) :
    gOpen.path (5, (k : Int) + 1) (5, 0) = some (5, (k : Int)) := by
  have hwalk0 : WalkFT gOpen (5, ((k + 1 : Nat) : Int)) (5, 0) (rowPath 5 (k + 1)) :=
    rowPath_walk (k + 1) (by omega)
  have hcast : (((k + 1 : Nat)) : Int) = (k : Int) + 1 := by push_cast; ring
  rw [hcast] at hwalk0
  have hne : ((5, (k : Int) + 1) : Coord) ≠ (5, 0) := by
    intro hc
    have h2 := congrArg Prod.snd hc
    simp only [] at h2
    omega
  obtain ⟨hsound, hnone⟩ := path_main gOpen (5, (k : Int) + 1) (5, 0)
  rcases hp : gOpen.path (5, (k : Int) + 1) (5, 0) with _ | c
  · exfalso
    rcases hnone hp with hc | hc
    · exact hne hc
    · exact hc (rowPath 5 (k + 1)) hwalk0
  · obtain ⟨rest, hw, h1, hminw⟩ := hsound c hp
    have hlb := walk_manh gOpen (((5, (k : Int) + 1) : Coord) :: rest) (5, (k : Int) + 1)
      (5, 0) hw
    have hmv : manh (5, (k : Int) + 1) (5, 0) = k + 1 := by
      simp only [manh]
      omega
    have hub := hminw (rowPath 5 (k + 1)) hwalk0
    rw [rowPath_length] at hub
    have hlen : (((5, (k : Int) + 1) : Coord) :: rest).length = k + 2 := by
      rw [hmv] at hlb
      omega
    rcases rest with _ | ⟨c1, rest2⟩
    · simp at h1
    · have hc1 : c1 = c := by simpa using h1
      subst hc1
      obtain ⟨hch, hhd, hlast⟩ := hw
      rw [List.chain'_cons] at hch
      have htail : WalkFT gOpen c1 (5, 0) (c1 :: rest2) :=
        ⟨hch.2, rfl, by simpa using hlast⟩
      have htl := walk_manh gOpen (c1 :: rest2) c1 (5, 0) htail
      have hlen2 : (c1 :: rest2).length = k + 1 := by
        simp only [List.length_cons] at hlen ⊢
        omega
      rw [hlen2] at htl
      obtain ⟨⟨d, hd, hc1d⟩, -⟩ := hch.1
      simp only [DIRECTIONS, List.mem_cons, List.not_mem_nil, or_false] at hd
      rcases hd with rfl | rfl | rfl | rfl <;> rw [hc1d] at htl ⊢ <;>
        simp only [manh] at htl
      · exact congrArg some (Prod.ext (by ring) (by ring))
      · exfalso
        omega
      · exfalso
        omega
      · exfalso
        omega

set_option maxRecDepth 1000000 in
/-- **C8**: `Game.path` performs breadth-first search over the 4-connected
walkable graph: it returns `none` when `src = dst` and exactly when `dst` is
unreachable otherwise; a returned cell is the first step (`path[1]`) of a
shortest walk from `src` to `dst`; on the open grid it walks `(5, x)` toward
`(5, 0)` via `(5, x - 1)` for every `x` in 1..12, and its fixed direction
order deterministically breaks the first-step tie from `(0, 0)` toward
`(2, 2)` in favor of `(1, 0)`. -/
theorem claim_C8 :
    (∀ (g : Game) (src : Coord), g.path src src = none) ∧
    (∀ (g : Game) (src dst c : Coord), g.path src dst = some c →
      ∃ rest, WalkFT g src dst (src :: rest) ∧ (src :: rest)[1]? = some c ∧
        ∀ w, WalkFT g src dst w → (src :: rest).length ≤ w.length) ∧
    (∀ (g : Game) (src dst : Coord), src ≠ dst → (∃ w, WalkFT g src dst w) →
      ∃ c, g.path src dst = some c) ∧
    (∀ (g : Game) (src dst : Coord), g.path src dst = none →
      src = dst ∨ ∀ w, ¬ WalkFT g src dst w) ∧
    (∀ k : Nat, k < 12 → gOpen.path (5, (k : Int) + 1) (5, 0) = some (5, (k : Int))) ∧
    gOpen.path (0, 0) (2, 2) = some (1, 0) := by
  refine ⟨path_self, ?_, ?_, ?_, path_instance, by decide⟩
  · intro g src dst c hc
    exact (path_main g src dst).1 c hc
  · intro g src dst hne hreach
    rcases hp : g.path src dst with _ | c
    · exfalso
      rcases (path_main g src dst).2 hp with hc | hc
      · exact hne hc
      · obtain ⟨w, hw⟩ := hreach
        exact hc w hw
    · exact ⟨c, rfl⟩
  · intro g src dst hn
    exact (path_main g src dst).2 hn

/-- Witness for C8: the first instance, one step from `(5, 1)` to `(5, 0)`. -/
theorem claim_C8_witness :
    gOpen.path (5, (0 : Int) + 1) (5, 0) = some (5, (0 : Int)) :=
  claim_C8.2.2.2.2.1 0 (by decide)

end Hypersonic
